import Mathlib

/-!
Verification development for the `SubComponentExtractor` core of the
figma2fgui repository (source: `src/generator/SubComponentExtractor.ts`,
multi-phase version, together with `src/models/UINode.ts` and
`src/models/FGUIEnum.ts`).

The TypeScript code is shallowly embedded as follows.

- `UINode` objects become a nested inductive tree (`UINode` below); the
  mutable fields written by the extractor (`asComponent`, `_structuralHash`,
  `_variantPageId`, `multiLooks`, `overrides`, `controllers`, `gears`) are
  ordinary fields updated functionally.
- The open style map `styles : Record<string, any>` is modelled as an
  association list of string keys to string values; JavaScript truthiness of
  a style value is modelled as "present and not the empty string", and
  `JSON.stringify` of a style value is modelled as quoting without escape
  handling (no claim depends on escape sequences).
- JavaScript numbers used by the extractor (coordinates, sizes, enum tags,
  page ids, counters) are integers in the source's uses, so they are
  modelled as `Int`/`Nat`; decimal rendering of numbers (template literals)
  is modelled by `natToDec`/`intToDec`.
- Stateful methods become explicit state passing: the candidate-group map,
  the component cache and the fresh-id counter are threaded through the
  phase functions, and the in-place tree mutation of each phase returns the
  updated tree.
-/

/-! ## JavaScript string primitives used by the extractor -/

/-- Model of `String.prototype.toLowerCase` (ASCII case folding; every
keyword compared by the extractor is ASCII or Chinese, and Chinese
characters are fixed by both versions). -/
def jsToLower (s : String) : String := String.mk (s.data.map Char.toLower)

/-- Helper for `jsIncludes`: does `sub` occur as a contiguous subsequence
of `l`? -/
def seqContains (l sub : List Char) : Bool :=
  match l with
  | [] => sub.isEmpty
  | _ :: t => sub.isPrefixOf l || seqContains t sub

/-- Model of `String.prototype.includes`. -/
def jsIncludes (s sub : String) : Bool := seqContains s.data sub.data

/-- Model of `Array.prototype.join(sep)`. -/
def jsJoin (sep : String) : List String → String
  | [] => ""
  | [x] => x
  | x :: y :: xs => x ++ sep ++ jsJoin sep (y :: xs)

/-- Decimal digit character (code 48 + d). -/
def decDigit (d : Nat) : Char := Char.ofNat (48 + d)

/-- Fuel-driven decimal rendering of a natural number (structural so that
the kernel can evaluate it). -/
def natToDecAux : Nat → Nat → List Char
  | 0, _ => []
  | fuel + 1, n =>
    if n < 10 then [decDigit n]
    else natToDecAux fuel (n / 10) ++ [decDigit (n % 10)]

/-- Model of JavaScript number-to-string conversion for naturals. -/
def natToDec (n : Nat) : String := String.mk (natToDecAux (n + 1) n)

/-- Model of JavaScript number-to-string conversion for integers. -/
def intToDec (i : Int) : String :=
  if i < 0 then "-" ++ natToDec i.natAbs else natToDec i.natAbs

/-! ## Style maps -/

/-- Association-list lookup: model of `node.styles[k]` (first binding wins;
the parser writes each key once). -/
def styleGet (styles : List (String × String)) (k : String) : Option String :=
  match styles.find? (fun p => p.1 = k) with
  | some p => some p.2
  | none => none

/-- Truthiness-gated style lookup: `some v` exactly when the JavaScript
test `if (node.styles[k])` passes, carrying the value. -/
def styleVal (styles : List (String × String)) (k : String) : Option String :=
  match styleGet styles k with
  | some v => if v = "" then none else some v
  | none => none

/-- Model of the assignment `styles[k] = v` (replace in place or append). -/
def styleSet (styles : List (String × String)) (k v : String) :
    List (String × String) :=
  match styles with
  | [] => [(k, v)]
  | (k', v') :: rest =>
    if k' = k then (k', v) :: rest else (k', v') :: styleSet rest k v

/-! ## FGUI enum tags (`src/models/FGUIEnum.ts`) -/

def ObjectType.Image : Nat := 0
def ObjectType.Graph : Nat := 3
def ObjectType.Loader : Nat := 4
def ObjectType.Group : Nat := 5
def ObjectType.Text : Nat := 6
def ObjectType.RichText : Nat := 7
def ObjectType.InputText : Nat := 8
def ObjectType.Component : Nat := 9
def ObjectType.List : Nat := 10
def ObjectType.Label : Nat := 11
def ObjectType.Button : Nat := 12
def ObjectType.ComboBox : Nat := 13
def ObjectType.ProgressBar : Nat := 14
def ObjectType.Slider : Nat := 15

/-! ## Data model (`src/models/UINode.ts`) -/

structure ControllerInfo where
  name : String
  pages : String
deriving Repr, DecidableEq

structure GearInfo where
  type : String
  controller : String
deriving Repr, DecidableEq

/-- An override value is either a string (`title`, `icon`) or a number
(`page`). -/
inductive OvVal where
  | str (s : String)
  | num (n : Nat)
deriving Repr, DecidableEq

structure ResourceInfo where
  id : String
  name : String
  type : String
  data : String
deriving Repr, DecidableEq

/-- Per-node record of `UINode` (everything except the children).
`isMask` models the truthiness of `customProps.isMask`, the only custom
property the extractor reads. -/
structure NodeData where
  id : String
  sourceId : Option String
  name : String
  type : Nat
  x : Int
  y : Int
  width : Int
  height : Int
  styles : List (String × String)
  isMask : Bool
  text : Option String
  src : Option String
  fileName : Option String
  visible : Option Bool
  multiLooks : List (Nat × String)
  asComponent : Bool
  structuralHash : Option String
  variantPageId : Option Nat
  overrides : List (String × OvVal)
  controllers : List ControllerInfo
  gears : List GearInfo
  extention : Option String
deriving Repr, DecidableEq

/-- The `UINode` tree: a data record plus the ordered children. -/
inductive UINode where
  | mk (data : NodeData) (children : List UINode)
deriving Repr

def UINode.data : UINode → NodeData
  | .mk d _ => d

def UINode.children : UINode → List UINode
  | .mk _ c => c

/-- A node record with every optional field absent and every flag cleared,
used to build concrete test trees. -/
def baseData : NodeData :=
  { id := ""
    sourceId := none
    name := ""
    type := 0
    x := 0
    y := 0
    width := 0
    height := 0
    styles := []
    isMask := false
    text := none
    src := none
    fileName := none
    visible := none
    multiLooks := []
    asComponent := false
    structuralHash := none
    variantPageId := none
    overrides := []
    controllers := []
    gears := []
    extention := none }

theorem UINode.sizeOf_child_lt {c : UINode} {d : NodeData} {cs : List UINode}
    (h : c ∈ cs) : sizeOf c < sizeOf (UINode.mk d cs) := by
  have := List.sizeOf_lt_of_mem h
  simp only [UINode.mk.sizeOf_spec]
  omega

/-- Induction principle for the nested tree: to prove `P` everywhere it
suffices to prove it at a node assuming it on every child. -/
theorem UINode.inductionOn (P : UINode → Prop)
    (h : ∀ d cs, (∀ c ∈ cs, P c) → P (.mk d cs)) : ∀ n, P n := by
  intro n
  match n with
  | .mk d cs =>
    apply h
    intro c hc
    have : sizeOf c < sizeOf (UINode.mk d cs) := UINode.sizeOf_child_lt hc
    exact UINode.inductionOn P h c
termination_by n => sizeOf n

/-! ## Structural hasher (`calculateStructuralHash`) -/

/-- The fixed whitelist of shape-defining style keys (`importantStyles`). -/
def importantStyles : List String :=
  ["borderRadius", "border", "strokeSize", "shadow", "fillType"]

/-- JSON string serialization, with escape handling omitted (the embedding
never relies on un-escaping). -/
def jsonQuote (s : String) : String := "\"" ++ s ++ "\""

/-- One element of the `parts` array pushed by `calculateStructuralHash`:
a JavaScript number or string. -/
inductive HPart where
  | num (n : Int)
  | str (s : String)
deriving Repr, DecidableEq

/-- Serialization of one `parts` element inside `JSON.stringify(parts)`. -/
def hpSer : HPart → String
  | .num n => intToDec n
  | .str s => jsonQuote s

/-- Model of `JSON.stringify` on the flat `parts` array. -/
def jsonArr (parts : List HPart) : String :=
  "[" ++ jsJoin "," (parts.map hpSer) ++ "]"

/-- The `[key, JSON.stringify(value)]` pairs pushed for each whitelisted
style key whose value is truthy, in whitelist order. -/
def hashStyleParts (styles : List (String × String)) : List HPart :=
  importantStyles.flatMap (fun k =>
    match styleVal styles k with
    | some v => [HPart.str k, HPart.str (jsonQuote v)]
    | none => [])

mutual
/-- Model of `calculateStructuralHash`: type, width, height, the
whitelisted style pairs, then the recursive child hashes, all serialized
as one JSON array.  `node.text`, `node.src` and the color styles are
deliberately not consulted. -/
def calculateStructuralHash : UINode → String
  | .mk d cs =>
    jsonArr ((HPart.num d.type :: HPart.num d.width :: HPart.num d.height ::
      hashStyleParts d.styles) ++ (childHashes cs).map HPart.str)

/-- The recursively computed hashes of a child list, in original order. -/
def childHashes : List UINode → List String
  | [] => []
  | c :: cs => calculateStructuralHash c :: childHashes cs
end

theorem hashStyleParts_congr (s1 s2 : List (String × String))
    (h : ∀ k ∈ importantStyles, styleVal s1 k = styleVal s2 k) :
    hashStyleParts s1 = hashStyleParts s2 := by
  unfold hashStyleParts
  have : ∀ ks : List String, (∀ k ∈ ks, styleVal s1 k = styleVal s2 k) →
      ks.flatMap (fun k => match styleVal s1 k with
        | some v => [HPart.str k, HPart.str (jsonQuote v)]
        | none => []) =
      ks.flatMap (fun k => match styleVal s2 k with
        | some v => [HPart.str k, HPart.str (jsonQuote v)]
        | none => []) := by
    intro ks hks
    induction ks with
    | nil => rfl
    | cons k ks ih =>
      simp only [List.flatMap_cons]
      rw [hks k (List.mem_cons_self k ks), ih (fun k' hk' => hks k' (List.mem_cons_of_mem _ hk'))]
  exact this importantStyles h

/-- C1: the structural hash is deterministic and content/color-blind.
If two nodes agree on type, width and height, present the same truthy
values for the whitelisted shape styles, and their children are pairwise
hash-equal in the same order, then `calculateStructuralHash` returns
identical strings — no matter how their text, fill/stroke colors or `src`
references differ (none of those fields is constrained by any hypothesis).
Repeated application to an unchanged node trivially returns the same
string since the embedding is a pure function. -/
theorem structuralHash_deterministic_and_content_blind
    (d1 d2 : NodeData) (cs1 cs2 : List UINode)
    (htype : d1.type = d2.type) (hw : d1.width = d2.width)
    (hh : d1.height = d2.height)
    (hstyles : ∀ k ∈ importantStyles, styleVal d1.styles k = styleVal d2.styles k)
    (hchildren : childHashes cs1 = childHashes cs2) :
    calculateStructuralHash (.mk d1 cs1) = calculateStructuralHash (.mk d2 cs2) ∧
    calculateStructuralHash (.mk d1 cs1) = calculateStructuralHash (.mk d1 cs1) := by
  refine ⟨?_, rfl⟩
  unfold calculateStructuralHash
  rw [htype, hw, hh, hashStyleParts_congr d1.styles d2.styles hstyles, hchildren]

/-- Concrete witness node: a button-shaped container with given fill color,
text and src on its text child. -/
def c1Node (fill txt srcv : String) : UINode :=
  .mk { baseData with
        id := "n1"
        name := "Btn"
        type := ObjectType.Button
        width := 100
        height := 40
        styles := [("borderRadius", "8"), ("fillColor", fill)] }
    [.mk { baseData with
           id := "t1"
           name := "label"
           type := ObjectType.Text
           text := some txt
           src := some srcv
           width := 80
           height := 20 } []]

/-- Witness for C1: two independently constructed nodes with different
text, fill colors and resource references hash identically. -/
theorem structuralHash_deterministic_and_content_blind_witness :
    calculateStructuralHash (c1Node "red" "OK" "a.png") =
      calculateStructuralHash (c1Node "blue" "Cancel" "b.png") ∧
    calculateStructuralHash (c1Node "red" "OK" "a.png") =
      calculateStructuralHash (c1Node "red" "OK" "a.png") := by
  exact structuralHash_deterministic_and_content_blind _ _ _ _
    (by decide) (by decide) (by decide) (by decide) (by decide)

/-! ## Candidate collector (`collectCandidatesRecursive`) and its predicates -/

/-- The interactive extension types (Button, Label, ProgressBar, Slider,
ComboBox, List), in the source's test order. -/
def isExtensionType (t : Nat) : Bool :=
  t == ObjectType.Button || t == ObjectType.Label || t == ObjectType.ProgressBar ||
  t == ObjectType.Slider || t == ObjectType.ComboBox || t == ObjectType.List

mutual
/-- Model of `allDescendantsAreShapes`: every descendant is a pure
graphical shape.  Text-like children and extension-type children refute
it; `Image`/`Graph` children are skipped without descending. -/
def allDescendantsAreShapes : UINode → Bool
  | .mk _ cs => allShapesL cs

def allShapesL : List UINode → Bool
  | [] => true
  | c :: cs =>
    if c.data.type == ObjectType.Text || c.data.type == ObjectType.RichText ||
        c.data.type == ObjectType.InputText then false
    else if isExtensionType c.data.type then false
    else if c.data.type == ObjectType.Image || c.data.type == ObjectType.Graph then
      allShapesL cs
    else allDescendantsAreShapes c && allShapesL cs
end

mutual
/-- Model of `hasMaskDescendants`: some descendant has a truthy
`customProps.isMask`. -/
def hasMaskDescendants : UINode → Bool
  | .mk _ cs => hasMaskL cs

def hasMaskL : List UINode → Bool
  | [] => false
  | c :: cs => c.data.isMask || hasMaskDescendants c || hasMaskL cs
end

/-- The interaction-state keywords that keep an invisible node eligible
for candidacy. -/
def collectStateKeywords : List String :=
  ["hover", "pressed", "down", "selected", "checked", "disabled", "悬停", "按下", "选中"]

/-- Does a (lower-cased) node name contain one of the state keywords? -/
def isStateVariantName (name : String) : Bool :=
  collectStateKeywords.any (fun k => jsIncludes (jsToLower name) k)

/-- Truthiness of `styles.background || styles.backgroundColor ||
styles.border || styles.outline`. -/
def hasVisualsB (styles : List (String × String)) : Bool :=
  (styleVal styles "background").isSome || (styleVal styles "backgroundColor").isSome ||
  (styleVal styles "border").isSome || (styleVal styles "outline").isSome

/-- The candidate-group map `_candidateGroups`, in insertion order; each
group holds the ids of its member nodes (object references in the source,
located by id in this embedding). -/
abbrev Groups := List (String × List String)

def groupsGet (g : Groups) (h : String) : Option (List String) :=
  match g.find? (fun p => p.1 = h) with
  | some p => some p.2
  | none => none

/-- Model of `if (!m.has(h)) m.set(h, []); m.get(h)!.push(id)`. -/
def groupsAdd (g : Groups) (h : String) (id : String) : Groups :=
  match g with
  | [] => [(h, [id])]
  | (h', ids) :: rest =>
    if h' = h then (h', ids ++ [id]) :: rest
    else (h', ids) :: groupsAdd rest h id

mutual
/-- Model of `collectCandidatesRecursive`: bottom-up walk that skips
invisible non-state nodes, recurses into children first, applies the
pure-shape / mask / denylist exclusions, and on acceptance hashes the
node, appends its id to the hash group, sets `asComponent` and caches
`_structuralHash`. -/
def collectCandidatesRecursive : UINode → Groups → UINode × Groups
  | .mk d cs, g =>
    if d.visible == some false && !isStateVariantName d.name then (.mk d cs, g)
    else if cs.isEmpty then (.mk d cs, g)
    else
      let p := collectChildren cs g
      let node' : UINode := .mk d p.1
      if allDescendantsAreShapes node' then (node', p.2)
      else if !isExtensionType d.type && hasMaskDescendants node' then (node', p.2)
      else
        let hasNestedExtracted := p.1.any (fun c => c.data.asComponent)
        let isSignificant := decide (p.1.length > 2) || isExtensionType d.type ||
          hasNestedExtracted || (hasVisualsB d.styles && decide (p.1.length > 0))
        if jsIncludes (jsToLower d.name) "btntext" then (node', p.2)
        else if isSignificant then
          let h := calculateStructuralHash node'
          (.mk { d with asComponent := true, structuralHash := some h } p.1,
            groupsAdd p.2 h d.id)
        else (node', p.2)

def collectChildren : List UINode → Groups → List UINode × Groups
  | [], g => ([], g)
  | c :: cs, g =>
    let p := collectCandidatesRecursive c g
    let q := collectChildren cs p.2
    (p.1 :: q.1, q.2)
end

/-- The lookup key the transformer uses for an extracted child:
`child._structuralHash || this.calculateStructuralHash(child)` (JavaScript
`||` falls back when the cached hash is absent or the empty string). -/
def resolveHashKey (n : UINode) : String :=
  match n.data.structuralHash with
  | some h => if h = "" then calculateStructuralHash n else h
  | none => calculateStructuralHash n

mutual
/-- Erase the two fields written by the collector, for stating that the
collector changes nothing else. -/
def eraseFlags : UINode → UINode
  | .mk d cs =>
    .mk { d with asComponent := false, structuralHash := none } (eraseFlagsL cs)

def eraseFlagsL : List UINode → List UINode
  | [] => []
  | c :: cs => eraseFlags c :: eraseFlagsL cs
end

/-! ## The collector only writes the two extraction fields -/

theorem eraseFlagsL_length : ∀ cs : List UINode, (eraseFlagsL cs).length = cs.length
  | [] => rfl
  | _ :: cs => by simp [eraseFlagsL, eraseFlagsL_length cs]

mutual
theorem collect_eraseFlags : ∀ (n : UINode) (g : Groups),
    eraseFlags (collectCandidatesRecursive n g).1 = eraseFlags n
  | .mk d cs, g => by
    have hcc := collectChildren_eraseFlags cs g
    simp only [collectCandidatesRecursive]
    repeat' split
    all_goals simp_all [eraseFlags]

theorem collectChildren_eraseFlags : ∀ (cs : List UINode) (g : Groups),
    eraseFlagsL (collectChildren cs g).1 = eraseFlagsL cs
  | [], _ => rfl
  | c :: cs, g => by
    simp only [collectChildren, eraseFlagsL]
    rw [collect_eraseFlags c g, collectChildren_eraseFlags cs _]
end

mutual
theorem hash_eraseFlags : ∀ n : UINode,
    calculateStructuralHash (eraseFlags n) = calculateStructuralHash n
  | .mk d cs => by
    simp only [eraseFlags, calculateStructuralHash]
    rw [childHashes_eraseFlagsL cs]

theorem childHashes_eraseFlagsL : ∀ cs : List UINode,
    childHashes (eraseFlagsL cs) = childHashes cs
  | [] => rfl
  | c :: cs => by
    simp only [eraseFlagsL, childHashes]
    rw [hash_eraseFlags c, childHashes_eraseFlagsL cs]
end

mutual
theorem allShapes_eraseFlags : ∀ n : UINode,
    allDescendantsAreShapes (eraseFlags n) = allDescendantsAreShapes n
  | .mk d cs => by
    simp only [eraseFlags, allDescendantsAreShapes]
    exact allShapesL_eraseFlagsL cs

theorem allShapesL_eraseFlagsL : ∀ cs : List UINode,
    allShapesL (eraseFlagsL cs) = allShapesL cs
  | [] => rfl
  | .mk dc cc :: cs => by
    simp only [eraseFlagsL, eraseFlags, allShapesL, UINode.data]
    rw [show allDescendantsAreShapes (.mk { dc with asComponent := false, structuralHash := none } (eraseFlagsL cc)) = allShapesL (eraseFlagsL cc) from rfl]
    rw [allShapesL_eraseFlagsL cc, allShapesL_eraseFlagsL cs]
    rfl
end

theorem childHashes_collectChildren (cs : List UINode) (g : Groups) :
    childHashes (collectChildren cs g).1 = childHashes cs := by
  rw [← childHashes_eraseFlagsL (collectChildren cs g).1,
    collectChildren_eraseFlags cs g, childHashes_eraseFlagsL cs]

theorem allShapesL_collectChildren (cs : List UINode) (g : Groups) :
    allShapesL (collectChildren cs g).1 = allShapesL cs := by
  rw [← allShapesL_eraseFlagsL (collectChildren cs g).1,
    collectChildren_eraseFlags cs g, allShapesL_eraseFlagsL cs]

theorem hash_mk_collectChildren (d : NodeData) (cs : List UINode) (g : Groups) :
    calculateStructuralHash (.mk d (collectChildren cs g).1) =
      calculateStructuralHash (.mk d cs) := by
  simp only [calculateStructuralHash]
  rw [childHashes_collectChildren cs g]

theorem jsonArr_ne_empty (parts : List HPart) : jsonArr parts ≠ "" := by
  intro h
  have h2 := congrArg String.data h
  simp only [jsonArr, String.data_append, show "[".data = ['['] from rfl] at h2
  exact absurd h2 (by simp [show ("" : String).data = [] from rfl])

theorem calculateStructuralHash_ne_empty (n : UINode) :
    calculateStructuralHash n ≠ "" := by
  match n with
  | .mk d cs =>
    simp only [calculateStructuralHash]
    exact jsonArr_ne_empty _

theorem groupsAdd_mem : ∀ (g : Groups) (h i : String),
    i ∈ (groupsGet (groupsAdd g h i) h).getD []
  | [], h, i => by simp [groupsAdd, groupsGet, List.find?]
  | (h', ids) :: rest, h, i => by
    by_cases he : h' = h
    · simp [groupsAdd, he, groupsGet, List.find?]
    · simp only [groupsAdd, if_neg he, groupsGet, List.find?]
      rw [show (decide (h' = h)) = false by simp [he]]
      exact groupsAdd_mem rest h i

/-- The three possible outcomes of the collector at one node: rejected
without touching anything, rejected after recursing into the children, or
accepted (flag set, hash cached, id appended to its hash group). -/
theorem collect_mk_cases (d : NodeData) (cs : List UINode) (g : Groups) :
    (collectCandidatesRecursive (.mk d cs) g = (.mk d cs, g)) ∨
    (collectCandidatesRecursive (.mk d cs) g =
      (.mk d (collectChildren cs g).1, (collectChildren cs g).2)) ∨
    (collectCandidatesRecursive (.mk d cs) g =
      (.mk { d with
             asComponent := true
             structuralHash := some (calculateStructuralHash (.mk d (collectChildren cs g).1)) }
         (collectChildren cs g).1,
       groupsAdd (collectChildren cs g).2
         (calculateStructuralHash (.mk d (collectChildren cs g).1)) d.id)) := by
  simp only [collectCandidatesRecursive]
  repeat' split
  · exact Or.inl rfl
  · exact Or.inl rfl
  · exact Or.inr (Or.inl rfl)
  · exact Or.inr (Or.inl rfl)
  · exact Or.inr (Or.inl rfl)
  · exact Or.inr (Or.inr rfl)
  · exact Or.inr (Or.inl rfl)

/-! ## Claims C10, C2, C4 -/

/-- C10: when the collector reaches a node whose `visible` field is
`false` and whose name contains no interaction-state keyword, it returns
before recursing: the node, its whole subtree and the candidate groups
come back untouched, so no descendant is ever added to a group or flagged
as extracted. -/
theorem collect_skips_invisible_non_state (n : UINode) (g : Groups)
    (hvis : n.data.visible = some false)
    (hstate : isStateVariantName n.data.name = false) :
    collectCandidatesRecursive n g = (n, g) := by
  match n with
  | .mk d cs =>
    simp only [UINode.data] at hvis hstate
    simp [collectCandidatesRecursive, hvis, hstate]

/-- Witness tree for C10: an invisible, neutrally named container whose
subtree would otherwise be significant (three text children). -/
def c10Node : UINode :=
  .mk { baseData with
        id := "g1"
        name := "Card"
        type := ObjectType.Component
        width := 50
        height := 50
        visible := some false }
    [.mk { baseData with id := "t1", name := "a", type := ObjectType.Text } [],
     .mk { baseData with id := "t2", name := "b", type := ObjectType.Text } [],
     .mk { baseData with id := "t3", name := "c", type := ObjectType.Text } []]

theorem collect_skips_invisible_non_state_witness :
    collectCandidatesRecursive c10Node [] = (c10Node, []) :=
  collect_skips_invisible_non_state c10Node [] (by decide) (by decide)

/-- C2 counterexample input: a visible Button — an interactive extension
type — with one Image child (which moreover is a mask). -/
def c2MaskedButton : UINode :=
  .mk { baseData with
        id := "b1"
        name := "PlayBtn"
        type := ObjectType.Button
        width := 10
        height := 10 }
    [.mk { baseData with id := "m1", name := "bg", type := ObjectType.Image, isMask := true } []]

/-- C2 is false as stated: this Button is an extension type with one
child, yet the collector rejects it (no flag, no group), because the
pure-shape-subtree exclusion is tested before the extension-type override
and its entire subtree is pure shapes.  The extension override only
bypasses the masked-descendant exclusion. -/
theorem collect_extension_not_always_candidate_cex :
    isExtensionType c2MaskedButton.data.type = true ∧
    c2MaskedButton.children.length = 1 ∧
    c2MaskedButton.data.visible ≠ some false ∧
    hasMaskDescendants c2MaskedButton = true ∧
    (collectCandidatesRecursive c2MaskedButton []).1.data.asComponent = false ∧
    (collectCandidatesRecursive c2MaskedButton []).2 = [] := by
  decide

/-- C2 (amended): an interactive-extension-type node with at least one
child is always accepted as a candidate — overriding the
masked-descendant exclusion — provided it passes the checks that are
applied to every node regardless of type: it is not an invisible
non-state node, its subtree is not made of pure shapes only, and its name
does not contain "btntext".  Acceptance sets `asComponent`, caches the
structural hash and appends the node's id to its hash group. -/
theorem collect_accepts_extension_types (d : NodeData) (cs : List UINode) (g : Groups)
    (hext : isExtensionType d.type = true)
    (hne : cs ≠ [])
    (hvis : ¬(d.visible = some false ∧ isStateVariantName d.name = false))
    (hshapes : allDescendantsAreShapes (.mk d cs) = false)
    (hname : jsIncludes (jsToLower d.name) "btntext" = false) :
    (collectCandidatesRecursive (.mk d cs) g).1.data.asComponent = true ∧
    (collectCandidatesRecursive (.mk d cs) g).1.data.structuralHash =
      some (calculateStructuralHash (.mk d cs)) ∧
    d.id ∈ (groupsGet (collectCandidatesRecursive (.mk d cs) g).2
      (calculateStructuralHash (.mk d cs))).getD [] := by
  have hcond1 : (d.visible == some false && !isStateVariantName d.name) = false := by
    by_cases hv : d.visible = some false
    · have hs : isStateVariantName d.name = true := by
        rcases Bool.eq_false_or_eq_true (isStateVariantName d.name) with h | h
        · exact h
        · exact absurd ⟨hv, h⟩ hvis
      simp [hv, hs]
    · simp [hv]
  have hemp : cs.isEmpty = false := by
    cases cs with
    | nil => exact absurd rfl hne
    | cons a b => rfl
  have hshapes' : allShapesL (collectChildren cs g).1 = false := by
    rw [allShapesL_collectChildren cs g]
    simpa [allDescendantsAreShapes] using hshapes
  simp only [collectCandidatesRecursive, hcond1, hemp, Bool.false_eq_true, if_false]
  simp only [show allDescendantsAreShapes (.mk d (collectChildren cs g).1) =
    allShapesL (collectChildren cs g).1 from rfl, hshapes', hext, hname]
  simp only [Bool.not_true, Bool.false_and, Bool.true_or, Bool.or_true, if_false, if_true,
    Bool.false_eq_true]
  refine ⟨rfl, ?_, ?_⟩
  · simp only [UINode.data]
    rw [hash_mk_collectChildren d cs g]
  · rw [hash_mk_collectChildren d cs g]
    exact groupsAdd_mem _ _ _

/-- Witness input for the amended C2: a visible Button with a text child
and a masked image child — masked descendants present, yet accepted. -/
def c2WitnessButton : NodeData :=
  { baseData with
    id := "b2"
    name := "Play"
    type := ObjectType.Button
    width := 20
    height := 8 }

def c2WitnessChildren : List UINode :=
  [.mk { baseData with id := "t1", name := "label", type := ObjectType.Text, text := some "GO" } [],
   .mk { baseData with id := "m1", name := "fx", type := ObjectType.Image, isMask := true } []]

theorem collect_accepts_extension_types_witness :
    (collectCandidatesRecursive (.mk c2WitnessButton c2WitnessChildren) []).1.data.asComponent = true ∧
    (collectCandidatesRecursive (.mk c2WitnessButton c2WitnessChildren) []).1.data.structuralHash =
      some (calculateStructuralHash (.mk c2WitnessButton c2WitnessChildren)) ∧
    c2WitnessButton.id ∈ (groupsGet (collectCandidatesRecursive (.mk c2WitnessButton c2WitnessChildren) []).2
      (calculateStructuralHash (.mk c2WitnessButton c2WitnessChildren))).getD [] :=
  collect_accepts_extension_types c2WitnessButton c2WitnessChildren []
    (by decide) (by simp [c2WitnessChildren]) (by decide) (by decide) (by decide)

/-- C4: when the collector accepts a node (the `asComponent` flag goes
from unset to set), the node's structural hash is computed and cached in
`_structuralHash` at that moment, before any later phase rewrites its
subtree; and the transformer's lookup key (`resolveHashKey`, the model of
`child._structuralHash || calculateStructuralHash(child)`) returns the
cached hash whenever it is present and non-empty — in particular the key
of the accepted node stays the acceptance-time hash for every possible
replacement of its children, instead of being recomputed from the
rewritten subtree. -/
theorem collect_stores_hash_before_mutation (d : NodeData) (cs : List UINode) (g : Groups)
    (hnotyet : d.asComponent = false)
    (haccepted : (collectCandidatesRecursive (.mk d cs) g).1.data.asComponent = true) :
    (collectCandidatesRecursive (.mk d cs) g).1.data.structuralHash =
      some (calculateStructuralHash (.mk d cs)) ∧
    (∀ (m : UINode) (h : String), m.data.structuralHash = some h → h ≠ "" →
      resolveHashKey m = h) ∧
    (∀ cs₂ : List UINode,
      resolveHashKey (.mk (collectCandidatesRecursive (.mk d cs) g).1.data cs₂) =
        calculateStructuralHash (.mk d cs)) := by
  have hkey : ∀ (m : UINode) (h : String), m.data.structuralHash = some h → h ≠ "" →
      resolveHashKey m = h := by
    intro m h hm hne
    unfold resolveHashKey
    rw [hm]
    simp [hne]
  rcases collect_mk_cases d cs g with hc | hc | hc
  · rw [hc] at haccepted
    exact absurd haccepted (by simp [UINode.data, hnotyet])
  · rw [hc] at haccepted
    exact absurd haccepted (by simp [UINode.data, hnotyet])
  · have hstored : (collectCandidatesRecursive (.mk d cs) g).1.data.structuralHash =
        some (calculateStructuralHash (.mk d cs)) := by
      rw [hc]
      simp only [UINode.data]
      rw [hash_mk_collectChildren d cs g]
    refine ⟨hstored, hkey, ?_⟩
    intro cs₂
    exact hkey (.mk (collectCandidatesRecursive (.mk d cs) g).1.data cs₂) _
      hstored (calculateStructuralHash_ne_empty _)

theorem collect_stores_hash_before_mutation_witness :
    (collectCandidatesRecursive (.mk c2WitnessButton c2WitnessChildren) []).1.data.structuralHash =
      some (calculateStructuralHash (.mk c2WitnessButton c2WitnessChildren)) ∧
    (∀ (m : UINode) (h : String), m.data.structuralHash = some h → h ≠ "" →
      resolveHashKey m = h) ∧
    (∀ cs₂ : List UINode,
      resolveHashKey (.mk (collectCandidatesRecursive (.mk c2WitnessButton c2WitnessChildren) []).1.data cs₂) =
        calculateStructuralHash (.mk c2WitnessButton c2WitnessChildren)) :=
  collect_stores_hash_before_mutation c2WitnessButton c2WitnessChildren []
    (by decide) (by decide)

/-! ## Visual fingerprinter (`computeVisualFingerprint`) -/

mutual
/-- Model of the inner `collectColors` closure applied to one node: a
`name:fill:color` entry for a truthy, non-transparent `fillColor`, a
`name:stroke:color` entry for a truthy `strokeColor`, then the children
in order. -/
def fpCollect : UINode → List String
  | .mk d cs =>
    (match styleVal d.styles "fillColor" with
     | some v => if v = "transparent" then [] else [d.name ++ ":fill:" ++ v]
     | none => []) ++
    (match styleVal d.styles "strokeColor" with
     | some v => [d.name ++ ":stroke:" ++ v]
     | none => []) ++
    fpCollectL cs

def fpCollectL : List UINode → List String
  | [] => []
  | c :: cs => fpCollect c ++ fpCollectL cs
end

/-- The entry list of `computeVisualFingerprint`: `collectColors` is
applied to the node's children only, so the root's own colors never
contribute. -/
def computeVisualFingerprintParts (n : UINode) : List String :=
  fpCollectL n.children

/-- Model of `computeVisualFingerprint`: the entries joined with `|`. -/
def computeVisualFingerprint (n : UINode) : String :=
  jsJoin "|" (computeVisualFingerprintParts n)

/-- The fingerprint-cluster map built by `analyzeMultiLooks` (`fpGroups`),
in insertion order. -/
def fpGroupsAdd (gs : List (String × List UINode)) (fp : String) (n : UINode) :
    List (String × List UINode) :=
  match gs with
  | [] => [(fp, [n])]
  | (fp', ns) :: rest =>
    if fp' = fp then (fp', ns ++ [n]) :: rest
    else (fp', ns) :: fpGroupsAdd rest fp n

def fpGroupsAux : List UINode → List (String × List UINode) → List (String × List UINode)
  | [], acc => acc
  | i :: is, acc => fpGroupsAux is (fpGroupsAdd acc (computeVisualFingerprint i) i)

/-- Model of the `fpGroups` map of `analyzeMultiLooks`: instances grouped
by visual fingerprint, clusters in first-occurrence order. -/
def fpGroups (instances : List UINode) : List (String × List UINode) :=
  fpGroupsAux instances []

/-- C9: `computeVisualFingerprint` starts `collectColors` at the node's
children, so the root node's own `fillColor`/`strokeColor` (indeed its
entire own record) never contributes an entry: two instances that differ
only in root data have identical fingerprints, and variant analysis puts
them into a single visual cluster. -/
theorem fingerprint_ignores_root_colors (d₁ d₂ : NodeData) (cs : List UINode) :
    computeVisualFingerprint (.mk d₁ cs) = computeVisualFingerprint (.mk d₂ cs) ∧
    (fpGroups [.mk d₁ cs, .mk d₂ cs]).length = 1 := by
  have hfp : computeVisualFingerprint (.mk d₁ cs) = computeVisualFingerprint (.mk d₂ cs) := by
    simp [computeVisualFingerprint, computeVisualFingerprintParts, UINode.children]
  refine ⟨hfp, ?_⟩
  simp [fpGroups, fpGroupsAux, fpGroupsAdd, hfp]

/-! ## Claim C6: color substitution at a tree path -/

mutual
/-- Replace the `fillColor` style of the node addressed by a child-index
path (the empty path addresses the root). -/
def setFillColorAt : UINode → List Nat → String → UINode
  | .mk d cs, [], c => .mk { d with styles := styleSet d.styles "fillColor" c } cs
  | .mk d cs, i :: p, c => .mk d (setFillColorAtL cs i p c)

def setFillColorAtL : List UINode → Nat → List Nat → String → List UINode
  | [], _, _, _ => []
  | x :: xs, 0, p, c => setFillColorAt x p c :: xs
  | x :: xs, i + 1, p, c => x :: setFillColorAtL xs i p c
end

mutual
/-- Does a child-index path address a node of the tree? -/
def validPath : UINode → List Nat → Bool
  | _, [] => true
  | .mk _ cs, i :: p => validPathL cs i p

def validPathL : List UINode → Nat → List Nat → Bool
  | [], _, _ => false
  | x :: _, 0, p => validPath x p
  | _ :: xs, i + 1, p => validPathL xs i p
end

theorem styleVal_styleSet_ne (styles : List (String × String)) (k v k' : String)
    (h : k' ≠ k) : styleVal (styleSet styles k v) k' = styleVal styles k' := by
  induction styles with
  | nil => simp [styleSet, styleVal, styleGet, List.find?, Ne.symm h]
  | cons kv rest ih =>
    obtain ⟨k₀, v₀⟩ := kv
    by_cases he : k₀ = k
    · subst he
      simp [styleSet, styleVal, styleGet, List.find?, Ne.symm h]
    · simp only [styleSet, if_neg he]
      by_cases he2 : k₀ = k'
      · simp [styleVal, styleGet, List.find?, he2]
      · simp only [styleVal, styleGet, List.find?,
          show (decide (k₀ = k')) = false by simp [he2]]
        exact ih

theorem styleVal_styleSet_self (styles : List (String × String)) (k v : String) :
    styleVal (styleSet styles k v) k = if v = "" then none else some v := by
  induction styles with
  | nil => simp [styleSet, styleVal, styleGet, List.find?]
  | cons kv rest ih =>
    obtain ⟨k₀, v₀⟩ := kv
    by_cases he : k₀ = k
    · subst he
      simp [styleSet, styleVal, styleGet, List.find?]
    · simp only [styleSet, if_neg he]
      simp only [styleVal, styleGet, List.find?,
        show (decide (k₀ = k)) = false by simp [he]]
      exact ih

mutual
theorem hash_setFillColorAt : ∀ (n : UINode) (p : List Nat) (c : String),
    calculateStructuralHash (setFillColorAt n p c) = calculateStructuralHash n
  | .mk d cs, [], c => by
    simp only [setFillColorAt, calculateStructuralHash]
    have hs : hashStyleParts (styleSet d.styles "fillColor" c) = hashStyleParts d.styles := by
      apply hashStyleParts_congr
      intro k hk
      apply styleVal_styleSet_ne
      simp only [importantStyles] at hk
      fin_cases hk <;> decide
    rw [hs]
  | .mk d cs, i :: p, c => by
    simp only [setFillColorAt, calculateStructuralHash]
    rw [childHashes_setFillColorAtL cs i p c]

theorem childHashes_setFillColorAtL : ∀ (cs : List UINode) (i : Nat) (p : List Nat) (c : String),
    childHashes (setFillColorAtL cs i p c) = childHashes cs
  | [], _, _, _ => rfl
  | x :: xs, 0, p, c => by
    simp only [setFillColorAtL, childHashes]
    rw [hash_setFillColorAt x p c]
  | x :: xs, i + 1, p, c => by
    simp only [setFillColorAtL, childHashes]
    rw [childHashes_setFillColorAtL xs i p c]
end

mutual
theorem fpCollect_setAt : ∀ (m : UINode) (q : List Nat), validPath m q = true →
    ∃ P Q nm, ∀ c : String, c ≠ "" → c ≠ "transparent" →
      fpCollect (setFillColorAt m q c) = P ++ (nm ++ ":fill:" ++ c) :: Q
  | .mk d cs, [], _ => by
    refine ⟨[], (match styleVal d.styles "strokeColor" with
      | some v => [d.name ++ ":stroke:" ++ v]
      | none => []) ++ fpCollectL cs, d.name, ?_⟩
    intro c hc ht
    simp only [setFillColorAt, fpCollect]
    rw [styleVal_styleSet_self, styleVal_styleSet_ne _ _ _ _ (by decide)]
    simp [hc, ht]
  | .mk d cs, i :: q, hv => by
    have hv' : validPathL cs i q = true := by simpa [validPath] using hv
    obtain ⟨P, Q, nm, hdec⟩ := fpCollectL_setAtL cs i q hv'
    refine ⟨(match styleVal d.styles "fillColor" with
      | some v => if v = "transparent" then [] else [d.name ++ ":fill:" ++ v]
      | none => []) ++
      (match styleVal d.styles "strokeColor" with
      | some v => [d.name ++ ":stroke:" ++ v]
      | none => []) ++ P, Q, nm, ?_⟩
    intro c hc ht
    simp only [setFillColorAt, fpCollect]
    rw [hdec c hc ht]
    simp [List.append_assoc]

theorem fpCollectL_setAtL : ∀ (cs : List UINode) (i : Nat) (q : List Nat),
    validPathL cs i q = true →
    ∃ P Q nm, ∀ c : String, c ≠ "" → c ≠ "transparent" →
      fpCollectL (setFillColorAtL cs i q c) = P ++ (nm ++ ":fill:" ++ c) :: Q
  | [], i, q, hv => by simp [validPathL] at hv
  | x :: xs, 0, q, hv => by
    have hv' : validPath x q = true := by simpa [validPathL] using hv
    obtain ⟨P, Q, nm, hdec⟩ := fpCollect_setAt x q hv'
    refine ⟨P, Q ++ fpCollectL xs, nm, ?_⟩
    intro c hc ht
    simp only [setFillColorAtL, fpCollectL]
    rw [hdec c hc ht]
    simp
  | x :: xs, i + 1, q, hv => by
    have hv' : validPathL xs i q = true := by simpa [validPathL] using hv
    obtain ⟨P, Q, nm, hdec⟩ := fpCollectL_setAtL xs i q hv'
    refine ⟨fpCollect x ++ P, Q, nm, ?_⟩
    intro c hc ht
    simp only [setFillColorAtL, fpCollectL]
    rw [hdec c hc ht]
    simp
end

theorem stringDataEq {a b : String} (h : a.data = b.data) : a = b := by
  cases a with
  | mk da =>
    cases b with
    | mk db =>
      have hdd : da = db := h
      rw [hdd]

theorem jsJoin_single_diff (sep : String) : ∀ (P : List String) (x y : String) (Q : List String),
    x ≠ y → jsJoin sep (P ++ x :: Q) ≠ jsJoin sep (P ++ y :: Q)
  | [], x, y, [], hxy => by simpa [jsJoin] using hxy
  | [], x, y, q :: qs, hxy => by
    intro heq
    apply hxy
    simp only [List.nil_append, jsJoin] at heq
    have hd := congrArg String.data heq
    simp only [String.data_append, List.append_assoc] at hd
    have hlen : x.data.length = y.data.length := by
      have hl := congrArg List.length hd
      simp only [List.length_append] at hl
      omega
    exact stringDataEq (List.append_inj hd hlen).1
  | p :: ps, x, y, Q, hxy => by
    intro heq
    obtain ⟨h₁, t₁, hL⟩ : ∃ h t, ps ++ x :: Q = h :: t := by
      cases ps with
      | nil => exact ⟨x, Q, rfl⟩
      | cons a b => exact ⟨a, b ++ x :: Q, by simp⟩
    obtain ⟨h₂, t₂, hM⟩ : ∃ h t, ps ++ y :: Q = h :: t := by
      cases ps with
      | nil => exact ⟨y, Q, rfl⟩
      | cons a b => exact ⟨a, b ++ y :: Q, by simp⟩
    refine jsJoin_single_diff sep ps x y Q hxy ?_
    simp only [List.cons_append] at heq
    rw [hL, hM] at heq
    rw [hL, hM]
    simp only [jsJoin] at heq
    have hd := congrArg String.data heq
    simp only [String.data_append, List.append_assoc] at hd
    have h3 := (List.append_inj hd rfl).2
    have h4 := (List.append_inj h3 rfl).2
    exact stringDataEq h4

/-- C6 counterexample input: a significant, structurally identical badge
whose root fill color is the parameter. -/
def c6Node (rootFill : String) : UINode :=
  .mk { baseData with
        id := "r"
        name := "Badge"
        type := ObjectType.Component
        width := 30
        height := 30
        styles := [("fillColor", rootFill)] }
    [.mk { baseData with id := "c1", name := "t", type := ObjectType.Text, text := some "x" } [],
     .mk { baseData with id := "c2", name := "dot", type := ObjectType.Image, styles := [("fillColor", "gold")] } [],
     .mk { baseData with id := "c3", name := "dot2", type := ObjectType.Image } []]

/-- C6 is false as stated: these two nodes are genuine extraction
candidates, structurally identical (equal structural hash), and differ in
the fill color of a node of their subtrees — the root — yet their visual
fingerprints are EQUAL, not different, because `computeVisualFingerprint`
never reads the root's own colors. -/
theorem hash_color_blind_fingerprint_sensitive_cex :
    (collectCandidatesRecursive (c6Node "red") []).1.data.asComponent = true ∧
    (collectCandidatesRecursive (c6Node "blue") []).1.data.asComponent = true ∧
    calculateStructuralHash (c6Node "red") = calculateStructuralHash (c6Node "blue") ∧
    styleVal (c6Node "red").data.styles "fillColor" ≠
      styleVal (c6Node "blue").data.styles "fillColor" ∧
    computeVisualFingerprint (c6Node "red") = computeVisualFingerprint (c6Node "blue") := by
  decide

/-- C6 (amended): restrict the differing fill color to a strict
descendant.  For any tree and any valid non-root path, substituting two
different truthy, non-transparent fill colors at that path yields two
instances whose structural hashes are equal (fill colors are not
whitelisted by the hasher) while their visual fingerprints differ, so
they land in the same candidate group but different visual clusters. -/
theorem hash_color_blind_fingerprint_sensitive (n : UINode) (p : List Nat) (c1 c2 : String)
    (hp : p ≠ []) (hv : validPath n p = true)
    (hc1 : c1 ≠ "") (hc2 : c2 ≠ "")
    (ht1 : c1 ≠ "transparent") (ht2 : c2 ≠ "transparent")
    (hne : c1 ≠ c2) :
    calculateStructuralHash (setFillColorAt n p c1) =
      calculateStructuralHash (setFillColorAt n p c2) ∧
    computeVisualFingerprint (setFillColorAt n p c1) ≠
      computeVisualFingerprint (setFillColorAt n p c2) := by
  constructor
  · rw [hash_setFillColorAt, hash_setFillColorAt]
  · match n, p, hp, hv with
    | .mk d cs, i :: q, _, hv =>
      have hv' : validPathL cs i q = true := by simpa [validPath] using hv
      obtain ⟨P, Q, nm, hdec⟩ := fpCollectL_setAtL cs i q hv'
      simp only [setFillColorAt, computeVisualFingerprint, computeVisualFingerprintParts,
        UINode.children]
      rw [hdec c1 hc1 ht1, hdec c2 hc2 ht2]
      apply jsJoin_single_diff
      intro hx
      apply hne
      have hd := congrArg String.data hx
      simp only [String.data_append, List.append_assoc] at hd
      have h3 := (List.append_inj hd rfl).2
      have h4 := (List.append_inj h3 rfl).2
      exact stringDataEq h4

theorem hash_color_blind_fingerprint_sensitive_witness :
    calculateStructuralHash (setFillColorAt (c6Node "red") [1] "green") =
      calculateStructuralHash (setFillColorAt (c6Node "red") [1] "purple") ∧
    computeVisualFingerprint (setFillColorAt (c6Node "red") [1] "green") ≠
      computeVisualFingerprint (setFillColorAt (c6Node "red") [1] "purple") :=
  hash_color_blind_fingerprint_sensitive (c6Node "red") [1] "green" "purple"
    (by decide) (by decide) (by decide) (by decide) (by decide) (by decide) (by decide)

/-! ## Instance active-state detection (`extractInstanceActiveState`) -/

/-- The four state keyword groups of `extractInstanceActiveState`, in the
source's iteration order. -/
def activeStateKeywords : List (String × List String) :=
  [("selected", ["selected", "选中", "checked"]),
   ("over", ["over", "hover", "悬停"]),
   ("down", ["down", "pressed", "按下", "clicked"]),
   ("disabled", ["disabled", "禁用", "grayed"])]

/-- The standard button page mapping (0:up, 1:down, 2:over,
3:selectedOver, 4:disabled). -/
def buttonPageMap (state : String) : Option Nat :=
  if state = "selected" then some 3
  else if state = "over" then some 2
  else if state = "down" then some 1
  else if state = "disabled" then some 4
  else none

/-- First state whose keyword list matches the lower-cased name. -/
def matchStateName (name : String) : Option String :=
  match activeStateKeywords.find?
      (fun pr => pr.2.any (fun k => jsIncludes (jsToLower name) k)) with
  | some pr => some pr.1
  | none => none

mutual
/-- Model of the `findVisibleState` closure: check the node's own name
unless the node is explicitly invisible, then recurse into children in
order, returning the first match. -/
def findVisibleState : UINode → Option String
  | .mk d cs =>
    match (if d.visible == some false then none else matchStateName d.name) with
    | some s => some s
    | none => findVisibleStateL cs

def findVisibleStateL : List UINode → Option String
  | [] => none
  | c :: cs =>
    match findVisibleState c with
    | some s => some s
    | none => findVisibleStateL cs
end

/-- Model of `extractInstanceActiveState`: a previously assigned
`_variantPageId` wins; otherwise fall back to name-keyword detection
through the button page map. -/
def extractInstanceActiveState (n : UINode) : Nat :=
  match n.data.variantPageId with
  | some p => p
  | none =>
    match findVisibleState n with
    | some s =>
      match buttonPageMap s with
      | some p => p
      | none => 0
    | none => 0

/-! ## Variant analyzer (`analyzeMultiLooks`) -/

/-- The `while (usedPageIds.has(pageId)) pageId = nextPageId++` loop,
fuel-driven; the fuel is always taken larger than `used.length`, which
suffices because each iteration draws a fresh candidate. -/
def resolvePageAux : Nat → Nat → Nat → List Nat → Nat × Nat
  | 0, p, next, _ => (p, next)
  | fuel + 1, p, next, used =>
    if p ∈ used then resolvePageAux fuel next (next + 1) used else (p, next)

/-- One page-id assignment for a non-canonical cluster: draw the next
sequential id, prefer a semantically meaningful keyword-derived id when
free, then skip forward past used ids.  Returns the page id and the new
`nextPageId`. -/
def assignPageId (used : List Nat) (next : Nat) (rep : UINode) : Nat × Nat :=
  let nameBased := extractInstanceActiveState rep
  let p1 := if nameBased > 0 ∧ nameBased ∉ used then nameBased else next
  resolvePageAux (used.length + 1) p1 (next + 1) used

/-- The cluster loop of `analyzeMultiLooks` phase B: the canonical
fingerprint's cluster keeps page 0, every other cluster receives a fresh
page id, recorded per fingerprint in iteration order. -/
def assignClusters : List (String × List UINode) → String → Nat → List Nat →
    List (String × Nat)
  | [], _, _, _ => []
  | (fp, group) :: rest, canonicalFP, next, used =>
    if fp = canonicalFP then (fp, 0) :: assignClusters rest canonicalFP next used
    else
      let rep := group.headD (.mk baseData [])
      let r := assignPageId used next rep
      (fp, r.1) :: assignClusters rest canonicalFP r.2 (used ++ [r.1])

def lookupAssign (as : List (String × Nat)) (fp : String) : Option Nat :=
  match as.find? (fun pr => pr.1 = fp) with
  | some pr => some pr.2
  | none => none

/-- Model of `multiLooks[pageId] = {sourceId: ...}`. -/
def mlSet (ml : List (Nat × String)) (k : Nat) (v : String) : List (Nat × String) :=
  match ml with
  | [] => [(k, v)]
  | (k', v') :: rest => if k' = k then (k', v) :: rest else (k', v') :: mlSet rest k v

/-- Model of `inst.sourceId || inst.id`. -/
def srcOrId (n : UINode) : String :=
  match n.data.sourceId with
  | some s => if s = "" then n.data.id else s
  | none => n.data.id

def setVariantPageId (n : UINode) (p : Nat) : UINode :=
  match n with
  | .mk d cs => .mk { d with variantPageId := some p } cs

/-- Record one `multiLooks` entry per non-canonical cluster on the
canonical node's record, in cluster order. -/
def applyLooksFold (canonicalFP : String) (asg : List (String × Nat)) :
    List (String × List UINode) → NodeData → NodeData
  | [], d => d
  | (fp, group) :: rest, d =>
    if fp = canonicalFP then applyLooksFold canonicalFP asg rest d
    else
      let pid := (lookupAssign asg fp).getD 0
      let src := srcOrId (group.headD (.mk baseData []))
      applyLooksFold canonicalFP asg rest { d with multiLooks := mlSet d.multiLooks pid src }

/-- Model of the `gearIcon` push guarded by
`!canonical.gears.find(g => g.type === 'gearIcon')`. -/
def ensureGearIcon (d : NodeData) : NodeData :=
  if d.gears.any (fun g => g.type = "gearIcon") then d
  else
    { d with gears := d.gears ++
        [{ type := "gearIcon"
           controller := if d.extention = some "Button" ∨ d.type = ObjectType.Button
             then "button" else "state" }] }

/-- Phase C of `analyzeMultiLooks` (all instances visually identical):
fall back to name-keyword detection per instance, recording a
`multiLooks` entry and ensuring the gear for each instance with a
non-zero page. -/
def phaseCFold : List UINode → NodeData → NodeData
  | [], d => d
  | inst :: rest, d =>
    let pid := extractInstanceActiveState inst
    if pid = 0 then phaseCFold rest d
    else
      phaseCFold rest
        (ensureGearIcon { d with multiLooks := mlSet d.multiLooks pid (srcOrId inst) })

/-- Tag one instance with its cluster's resolved page id
(`group.forEach(inst => inst._variantPageId = pageId)`, expressed through
the per-fingerprint assignment map). -/
def tagInstance (asg : List (String × Nat)) (inst : UINode) : UINode :=
  match lookupAssign asg (computeVisualFingerprint inst) with
  | some pid => setVariantPageId inst pid
  | none => inst

/-- Model of `analyzeMultiLooks`: with a single instance do nothing; with
several, cluster by visual fingerprint; with more than one cluster assign
page ids per cluster (canonical cluster keeps 0), tag every instance's
`_variantPageId`, and record the looks and the icon gear on the canonical
node; otherwise fall back to per-instance name-keyword detection. -/
def analyzeMultiLooks (instances : List UINode) : List UINode :=
  if instances.length ≤ 1 then instances
  else
    match instances with
    | [] => []
    | canonical :: rest =>
      let canonicalFP := computeVisualFingerprint canonical
      let clusters := fpGroups (canonical :: rest)
      if clusters.length > 1 then
        let asg := assignClusters clusters canonicalFP 1 [0]
        match (canonical :: rest).map (tagInstance asg) with
        | [] => []
        | c0 :: r0 =>
          .mk (ensureGearIcon (applyLooksFold canonicalFP asg clusters c0.data))
            c0.children :: r0
      else
        .mk (phaseCFold (canonical :: rest) canonical.data) canonical.children :: rest

/-! ## Freshness of assigned page ids -/

theorem filter_ge_succ_lt (used : List Nat) (next : Nat) (hnd : used.Nodup)
    (hn : next ∈ used) :
    (used.filter (fun x => decide (next + 1 ≤ x))).length <
      (used.filter (fun x => decide (next ≤ x))).length := by
  induction used with
  | nil => cases hn
  | cons a l ih =>
    have hnd' : l.Nodup := (List.nodup_cons.mp hnd).2
    have hna : a ∉ l := (List.nodup_cons.mp hnd).1
    rcases List.mem_cons.mp hn with ha | hl
    · subst ha
      have hmono : (l.filter (fun x => decide (next + 1 ≤ x))).length ≤
          (l.filter (fun x => decide (next ≤ x))).length := by
        refine List.Sublist.length_le (List.monotone_filter_right l ?_)
        intro x hx
        simp only [decide_eq_true_eq] at hx ⊢
        omega
      simp only [List.filter_cons, decide_eq_true_eq]
      rw [if_pos (Nat.le_refl next), if_neg (by omega : ¬(next + 1 ≤ next))]
      simpa using Nat.lt_succ_of_le hmono
    · have hne : a ≠ next := fun h => hna (h ▸ hl)
      simp only [List.filter_cons, decide_eq_true_eq]
      by_cases h1 : next ≤ a
      · have h2 : next + 1 ≤ a := by omega
        rw [if_pos h2, if_pos h1]
        simpa using Nat.succ_lt_succ (ih hnd' hl)
      · have h2 : ¬(next + 1 ≤ a) := by omega
        rw [if_neg h2, if_neg h1]
        exact ih hnd' hl

theorem resolvePageAux_skip (fuel p next : Nat) (used : List Nat) (hp : p ∉ used) :
    resolvePageAux fuel p next used = (p, next) := by
  cases fuel with
  | zero => rfl
  | succ f => simp [resolvePageAux, hp]

theorem resolvePageAux_not_mem : ∀ (fuel p next : Nat) (used : List Nat),
    used.Nodup → (used.filter (fun x => decide (next ≤ x))).length < fuel →
    (resolvePageAux fuel p next used).1 ∉ used := by
  intro fuel
  induction fuel with
  | zero => intro p next used _ hlt; exact absurd hlt (Nat.not_lt_zero _)
  | succ f ih =>
    intro p next used hnd hlt
    by_cases hp : p ∈ used
    · simp only [resolvePageAux, if_pos hp]
      by_cases hn : next ∈ used
      · refine ih next (next + 1) used hnd ?_
        have := filter_ge_succ_lt used next hnd hn
        omega
      · rw [resolvePageAux_skip f next (next + 1) used hn]
        exact hn
    · rw [resolvePageAux_skip (f + 1) p next used hp]
      exact hp

theorem resolvePage_entry (p1 next : Nat) (used : List Nat) (hnd : used.Nodup) :
    (resolvePageAux (used.length + 1) p1 next used).1 ∉ used := by
  by_cases hp : p1 ∈ used
  · refine resolvePageAux_not_mem (used.length + 1) p1 next used hnd ?_
    have : (used.filter (fun x => decide (next ≤ x))).length ≤ used.length :=
      List.Sublist.length_le (List.filter_sublist used)
    omega
  · rw [resolvePageAux_skip _ _ _ _ hp]
    exact hp

theorem assignPageId_not_mem (used : List Nat) (next : Nat) (rep : UINode)
    (hnd : used.Nodup) : (assignPageId used next rep).1 ∉ used :=
  resolvePage_entry _ _ used hnd

theorem assignClusters_spec : ∀ (cl : List (String × List UINode)) (cfp : String)
    (next : Nat) (used : List Nat), used.Nodup → 0 ∈ used →
    (∀ pr ∈ assignClusters cl cfp next used,
      (pr.1 = cfp → pr.2 = 0) ∧ (pr.1 ≠ cfp → pr.2 ∉ used ∧ 1 ≤ pr.2)) ∧
    (((assignClusters cl cfp next used).filter
      (fun pr => pr.1 ≠ cfp)).map Prod.snd).Nodup
  | [], cfp, next, used => fun _ _ => by simp [assignClusters]
  | (fp, group) :: rest, cfp, next, used => fun hnd h0 => by
    by_cases he : fp = cfp
    · obtain ⟨ih1, ih2⟩ := assignClusters_spec rest cfp next used hnd h0
      subst he
      simp only [assignClusters, if_pos rfl]
      constructor
      · intro pr hpr
        rcases List.mem_cons.mp hpr with h | h
        · subst h
          exact ⟨fun _ => rfl, fun hne => absurd rfl hne⟩
        · exact ih1 pr h
      · simpa [List.filter_cons] using ih2
    · have hpnm : (assignPageId used next (group.headD (.mk baseData []))).1 ∉ used :=
        assignPageId_not_mem used next _ hnd
      have hnd' : (used ++ [(assignPageId used next (group.headD (.mk baseData []))).1]).Nodup := by
        rw [List.nodup_append]
        refine ⟨hnd, List.nodup_singleton _, ?_⟩
        intro x hx hxs
        rw [List.mem_singleton] at hxs
        subst hxs
        exact hpnm hx
      have h0' : 0 ∈ used ++ [(assignPageId used next (group.headD (.mk baseData []))).1] :=
        List.mem_append_left _ h0
      obtain ⟨ih1, ih2⟩ := assignClusters_spec rest cfp
        (assignPageId used next (group.headD (.mk baseData []))).2
        (used ++ [(assignPageId used next (group.headD (.mk baseData []))).1]) hnd' h0'
      simp only [assignClusters, if_neg he]
      constructor
      · intro pr hpr
        rcases List.mem_cons.mp hpr with h | h
        · subst h
          refine ⟨fun hc => absurd hc he, fun _ => ⟨hpnm, ?_⟩⟩
          refine Nat.one_le_iff_ne_zero.mpr ?_
          intro hz
          have hz' : (assignPageId used next (group.headD (.mk baseData []))).1 = 0 := hz
          exact hpnm (by rw [hz']; exact h0)
        · have hh := ih1 pr h
          exact ⟨hh.1, fun hne =>
            ⟨fun hmem => (hh.2 hne).1 (List.mem_append_left _ hmem), (hh.2 hne).2⟩⟩
      · simp only [List.filter_cons]
        rw [if_pos (by simpa using he)]
        simp only [List.map_cons, List.nodup_cons]
        refine ⟨?_, ih2⟩
        intro hmem
        obtain ⟨pr, hprmem, hprsnd⟩ := List.mem_map.mp hmem
        have hpr' := List.mem_filter.mp hprmem
        have hh := (ih1 pr hpr'.1).2 (by simpa using hpr'.2)
        exact hh.1 (by
          rw [hprsnd]
          exact List.mem_append_right _ (by simp))

theorem fpGroupsAdd_key_self (gs : List (String × List UINode)) (fp : String) (n : UINode) :
    fp ∈ (fpGroupsAdd gs fp n).map Prod.fst := by
  induction gs with
  | nil => simp [fpGroupsAdd]
  | cons pr rest ih =>
    obtain ⟨fp', ns⟩ := pr
    by_cases he : fp' = fp
    · simp [fpGroupsAdd, he]
    · simp only [fpGroupsAdd, if_neg he, List.map_cons, List.mem_cons]
      exact Or.inr ih

theorem fpGroupsAdd_key_mono (gs : List (String × List UINode)) (fp fp₀ : String) (n : UINode)
    (h : fp₀ ∈ gs.map Prod.fst) : fp₀ ∈ (fpGroupsAdd gs fp n).map Prod.fst := by
  induction gs with
  | nil => simp at h
  | cons pr rest ih =>
    obtain ⟨fp', ns⟩ := pr
    simp only [List.map_cons, List.mem_cons] at h
    by_cases he : fp' = fp
    · simp only [fpGroupsAdd, if_pos he, List.map_cons, List.mem_cons]
      rcases h with h | h
      · exact Or.inl h
      · exact Or.inr h
    · simp only [fpGroupsAdd, if_neg he, List.map_cons, List.mem_cons]
      rcases h with h | h
      · exact Or.inl h
      · exact Or.inr (ih h)

theorem fpGroupsAux_key_mono : ∀ (is : List UINode) (acc : List (String × List UINode))
    (fp₀ : String), fp₀ ∈ acc.map Prod.fst → fp₀ ∈ (fpGroupsAux is acc).map Prod.fst
  | [], _, _ => id
  | i :: is, acc, fp₀ => fun h =>
    fpGroupsAux_key_mono is _ fp₀ (fpGroupsAdd_key_mono acc _ fp₀ i h)

theorem fpGroups_covers : ∀ (is : List UINode) (acc : List (String × List UINode))
    (inst : UINode), inst ∈ is →
    computeVisualFingerprint inst ∈ (fpGroupsAux is acc).map Prod.fst
  | [], _, inst, h => absurd h (List.not_mem_nil inst)
  | i :: is, acc, inst, h => by
    rcases List.mem_cons.mp h with he | hm
    · rw [he]
      exact fpGroupsAux_key_mono is _ _ (fpGroupsAdd_key_self acc _ i)
    · exact fpGroups_covers is _ inst hm

theorem lookupAssign_covers (asg : List (String × Nat)) (fp : String)
    (h : fp ∈ asg.map Prod.fst) :
    ∃ pid, lookupAssign asg fp = some pid ∧ (fp, pid) ∈ asg := by
  induction asg with
  | nil => simp at h
  | cons pr rest ih =>
    obtain ⟨fp', pid'⟩ := pr
    by_cases he : fp' = fp
    · subst he
      exact ⟨pid', by simp [lookupAssign, List.find?_cons], List.mem_cons_self _ _⟩
    · simp only [List.map_cons, List.mem_cons] at h
      rcases h with h | h
      · exact absurd h.symm he
      · obtain ⟨pid, hl, hm⟩ := ih h
        refine ⟨pid, ?_, List.mem_cons_of_mem _ hm⟩
        simp only [lookupAssign, List.find?_cons] at hl ⊢
        rw [show (decide ((fp', pid').1 = fp)) = false by simp [he]]
        exact hl

theorem assignClusters_keys : ∀ (cl : List (String × List UINode)) (cfp : String)
    (next : Nat) (used : List Nat),
    (assignClusters cl cfp next used).map Prod.fst = cl.map Prod.fst
  | [], _, _, _ => rfl
  | (fp, group) :: rest, cfp, next, used => by
    by_cases he : fp = cfp
    · simp only [assignClusters, if_pos he, List.map_cons]
      rw [assignClusters_keys rest cfp next used]
    · simp only [assignClusters, if_neg he, List.map_cons]
      rw [assignClusters_keys rest cfp _ _]

theorem applyLooksFold_variant : ∀ (cl : List (String × List UINode)) (cfp : String)
    (asg : List (String × Nat)) (d : NodeData),
    (applyLooksFold cfp asg cl d).variantPageId = d.variantPageId
  | [], _, _, _ => rfl
  | (fp, group) :: rest, cfp, asg, d => by
    by_cases he : fp = cfp
    · simp only [applyLooksFold, if_pos he]
      exact applyLooksFold_variant rest cfp asg d
    · simp only [applyLooksFold, if_neg he]
      exact applyLooksFold_variant rest cfp asg _

theorem ensureGearIcon_variant (d : NodeData) :
    (ensureGearIcon d).variantPageId = d.variantPageId := by
  unfold ensureGearIcon
  split <;> rfl

theorem fpGroupsAdd_length (gs : List (String × List UINode)) (fp : String) (n : UINode) :
    (fpGroupsAdd gs fp n).length ≤ gs.length + 1 := by
  induction gs with
  | nil => simp [fpGroupsAdd]
  | cons pr rest ih =>
    obtain ⟨fp', ns⟩ := pr
    by_cases he : fp' = fp
    · simp [fpGroupsAdd, he]
    · simp only [fpGroupsAdd, if_neg he, List.length_cons]
      omega

theorem fpGroupsAux_length : ∀ (is : List UINode) (acc : List (String × List UINode)),
    (fpGroupsAux is acc).length ≤ acc.length + is.length
  | [], acc => by simp [fpGroupsAux]
  | i :: is, acc => by
    have h1 := fpGroupsAux_length is (fpGroupsAdd acc (computeVisualFingerprint i) i)
    have h2 := fpGroupsAdd_length acc (computeVisualFingerprint i) i
    simp only [fpGroupsAux, List.length_cons]
    omega

theorem setVariantPageId_children (n : UINode) (p : Nat) :
    (setVariantPageId n p).children = n.children := by
  cases n
  rfl

theorem setVariantPageId_variant (n : UINode) (p : Nat) :
    (setVariantPageId n p).data.variantPageId = some p := by
  cases n
  rfl

theorem fingerprint_children_only (n : UINode) :
    computeVisualFingerprint n = jsJoin "|" (fpCollectL n.children) := by
  cases n
  rfl

theorem tagInstance_children (asg : List (String × Nat)) (inst : UINode) :
    (tagInstance asg inst).children = inst.children := by
  unfold tagInstance
  split
  · exact setVariantPageId_children _ _
  · rfl

theorem tagInstance_fingerprint (asg : List (String × Nat)) (inst : UINode) :
    computeVisualFingerprint (tagInstance asg inst) = computeVisualFingerprint inst := by
  rw [fingerprint_children_only, fingerprint_children_only, tagInstance_children]

theorem analyzeMultiLooks_multi_eq (canonical : UINode) (rest : List UINode)
    (hlen2 : ¬(canonical :: rest).length ≤ 1)
    (hmulti : (fpGroups (canonical :: rest)).length > 1) :
    analyzeMultiLooks (canonical :: rest) =
      UINode.mk (ensureGearIcon (applyLooksFold (computeVisualFingerprint canonical)
          (assignClusters (fpGroups (canonical :: rest)) (computeVisualFingerprint canonical) 1 [0])
          (fpGroups (canonical :: rest))
          (tagInstance (assignClusters (fpGroups (canonical :: rest))
            (computeVisualFingerprint canonical) 1 [0]) canonical).data))
        (tagInstance (assignClusters (fpGroups (canonical :: rest))
          (computeVisualFingerprint canonical) 1 [0]) canonical).children ::
      rest.map (tagInstance (assignClusters (fpGroups (canonical :: rest))
        (computeVisualFingerprint canonical) 1 [0])) := by
  simp only [analyzeMultiLooks, List.map_cons]
  rw [if_neg hlen2, if_pos hmulti]

/-- C3: when variant analysis detects multiple visual-fingerprint
clusters, page id 0 stays reserved for the canonical appearance.  The
cluster assignment maps the canonical instance's fingerprint to 0 and
every other cluster to a page id that is at least 1 and distinct from all
previously assigned ids; accordingly, in the analyzed instance list every
instance whose fingerprint matches the canonical one carries
`_variantPageId = 0` and every other instance carries a non-zero id. -/
theorem variant_analysis_reserves_page_zero (canonical : UINode) (rest : List UINode)
    (hmulti : (fpGroups (canonical :: rest)).length > 1) :
    (∀ pr ∈ assignClusters (fpGroups (canonical :: rest))
        (computeVisualFingerprint canonical) 1 [0],
      (pr.1 = computeVisualFingerprint canonical → pr.2 = 0) ∧
      (pr.1 ≠ computeVisualFingerprint canonical → 1 ≤ pr.2)) ∧
    (((assignClusters (fpGroups (canonical :: rest))
        (computeVisualFingerprint canonical) 1 [0]).filter
        (fun pr => pr.1 ≠ computeVisualFingerprint canonical)).map Prod.snd).Nodup ∧
    (∀ m ∈ analyzeMultiLooks (canonical :: rest),
      (computeVisualFingerprint m = computeVisualFingerprint canonical →
        m.data.variantPageId = some 0) ∧
      (computeVisualFingerprint m ≠ computeVisualFingerprint canonical →
        ∃ p, m.data.variantPageId = some p ∧ 1 ≤ p)) := by
  obtain ⟨hspec1, hspec2⟩ := assignClusters_spec (fpGroups (canonical :: rest))
    (computeVisualFingerprint canonical) 1 [0] (List.nodup_singleton 0) (by simp)
  refine ⟨fun pr hpr => ⟨(hspec1 pr hpr).1, fun hne => ((hspec1 pr hpr).2 hne).2⟩, hspec2, ?_⟩
  have hlen2 : ¬(canonical :: rest).length ≤ 1 := by
    intro hle
    have hb := fpGroupsAux_length (canonical :: rest) []
    simp only [fpGroups] at hmulti
    simp only [List.length_nil, Nat.zero_add] at hb
    omega
  rw [analyzeMultiLooks_multi_eq canonical rest hlen2 hmulti]
  have htag : ∀ inst ∈ canonical :: rest,
      ∃ pid, lookupAssign (assignClusters (fpGroups (canonical :: rest))
          (computeVisualFingerprint canonical) 1 [0]) (computeVisualFingerprint inst) = some pid ∧
        (computeVisualFingerprint inst, pid) ∈ assignClusters (fpGroups (canonical :: rest))
          (computeVisualFingerprint canonical) 1 [0] := by
    intro inst hinst
    refine lookupAssign_covers _ _ ?_
    rw [assignClusters_keys]
    exact fpGroups_covers (canonical :: rest) [] inst hinst
  intro m hm
  rcases List.mem_cons.mp hm with hhead | htail
  · -- m is the rewritten canonical
    obtain ⟨pid0, hl0, hmem0⟩ := htag canonical (List.mem_cons_self _ _)
    have hpid0 : pid0 = 0 := (hspec1 _ hmem0).1 rfl
    have hch := tagInstance_children (assignClusters (fpGroups (canonical :: rest))
      (computeVisualFingerprint canonical) 1 [0]) canonical
    have hmfp : computeVisualFingerprint m = computeVisualFingerprint canonical := by
      rw [hhead, hch]
      cases canonical with
      | mk dc cc => rfl
    have hmv : m.data.variantPageId = some 0 := by
      rw [hhead]
      simp only [UINode.data]
      rw [ensureGearIcon_variant, applyLooksFold_variant]
      unfold tagInstance
      rw [hl0, hpid0]
      exact setVariantPageId_variant canonical 0
    exact ⟨fun _ => hmv, fun hne => absurd hmfp hne⟩
  · obtain ⟨inst, hinst, rfl⟩ := List.mem_map.mp htail
    obtain ⟨pid, hl, hmem⟩ := htag inst (List.mem_cons_of_mem _ hinst)
    have hmv : (tagInstance (assignClusters (fpGroups (canonical :: rest))
        (computeVisualFingerprint canonical) 1 [0]) inst).data.variantPageId = some pid := by
      unfold tagInstance
      rw [hl]
      exact setVariantPageId_variant inst pid
    have hmfp := tagInstance_fingerprint (assignClusters (fpGroups (canonical :: rest))
      (computeVisualFingerprint canonical) 1 [0]) inst
    constructor
    · intro heq
      rw [hmfp] at heq
      have : pid = 0 := (hspec1 _ hmem).1 heq
      rw [hmv, this]
    · intro hne
      rw [hmfp] at hne
      exact ⟨pid, hmv, ((hspec1 _ hmem).2 hne).2⟩

/-- Witness instances for C3: two structurally identical buttons whose
background children differ in fill color, so variant analysis sees two
clusters. -/
def c3Inst (idv fill : String) : UINode :=
  .mk { baseData with
        id := idv
        name := "Btn"
        type := ObjectType.Button
        width := 10
        height := 10 }
    [.mk { baseData with
           id := idv ++ "b"
           name := "bg"
           type := ObjectType.Image
           styles := [("fillColor", fill)] } []]

theorem variant_analysis_reserves_page_zero_witness :
    (∀ pr ∈ assignClusters (fpGroups (c3Inst "a" "red" :: [c3Inst "b" "blue"]))
        (computeVisualFingerprint (c3Inst "a" "red")) 1 [0],
      (pr.1 = computeVisualFingerprint (c3Inst "a" "red") → pr.2 = 0) ∧
      (pr.1 ≠ computeVisualFingerprint (c3Inst "a" "red") → 1 ≤ pr.2)) ∧
    (((assignClusters (fpGroups (c3Inst "a" "red" :: [c3Inst "b" "blue"]))
        (computeVisualFingerprint (c3Inst "a" "red")) 1 [0]).filter
        (fun pr => pr.1 ≠ computeVisualFingerprint (c3Inst "a" "red"))).map Prod.snd).Nodup ∧
    (∀ m ∈ analyzeMultiLooks (c3Inst "a" "red" :: [c3Inst "b" "blue"]),
      (computeVisualFingerprint m = computeVisualFingerprint (c3Inst "a" "red") →
        m.data.variantPageId = some 0) ∧
      (computeVisualFingerprint m ≠ computeVisualFingerprint (c3Inst "a" "red") →
        ∃ p, m.data.variantPageId = some p ∧ 1 ≤ p)) :=
  variant_analysis_reserves_page_zero (c3Inst "a" "red") [c3Inst "b" "blue"] (by decide)

/-! ## Overrides extraction (`extractOverrides`) -/

def ovSet (m : List (String × OvVal)) (k : String) (v : OvVal) : List (String × OvVal) :=
  match m with
  | [] => [(k, v)]
  | (k', v') :: rest => if k' = k then (k', v) :: rest else (k', v') :: ovSet rest k v

/-- Does a name match the title-override keywords (label/title/文本/数值)? -/
def titleNameMatch (name : String) : Bool :=
  jsIncludes (jsToLower name) "label" || jsIncludes (jsToLower name) "title" ||
  jsIncludes (jsToLower name) "文本" || jsIncludes (jsToLower name) "数值"

/-- Does a name match the icon-override keywords
(icon/image/图标/bg/background)? -/
def iconNameMatch (name : String) : Bool :=
  jsIncludes (jsToLower name) "icon" || jsIncludes (jsToLower name) "image" ||
  jsIncludes (jsToLower name) "图标" || jsIncludes (jsToLower name) "bg" ||
  jsIncludes (jsToLower name) "background"

mutual
/-- Model of the `findChanges` closure: record a `title` override for a
text descendant with truthy text and a matching name, an `icon` override
for an image/loader descendant with truthy `src` and a matching name,
then recurse; later matches overwrite earlier ones. -/
def findChanges : UINode → List (String × OvVal) → List (String × OvVal)
  | .mk d cs, ov =>
    let ov1 :=
      match d.text with
      | some t =>
        if d.type == ObjectType.Text && t != "" && titleNameMatch d.name then
          ovSet ov "title" (OvVal.str t)
        else ov
      | none => ov
    let ov2 :=
      match d.src with
      | some s =>
        if (d.type == ObjectType.Image || d.type == ObjectType.Loader) && s != "" &&
            iconNameMatch d.name then
          ovSet ov1 "icon" (OvVal.str s)
        else ov1
      | none => ov1
    findChangesL cs ov2

def findChangesL : List UINode → List (String × OvVal) → List (String × OvVal)
  | [], ov => ov
  | c :: cs, ov => findChangesL cs (findChanges c ov)
end

/-- Model of `extractOverrides` (applied to the node itself and its whole
subtree). -/
def extractOverrides (n : UINode) : List (String × OvVal) := findChanges n []

/-! ## Tree transformer (`transformTreeRecursive`) -/

/-- The component cache `_componentCache` (hash → resource, insertion
order). -/
abbrev Cache := List (String × ResourceInfo)

def cacheGet (cache : Cache) (h : String) : Option ResourceInfo :=
  match cache.find? (fun pr => pr.1 = h) with
  | some pr => some pr.2
  | none => none

/-- The reference node the transformer substitutes for an extracted
child: identity and geometry copied, children emptied, `src` linked to
the resource, overrides computed from the original subtree, and a `page`
override when the instance's resolved page is non-zero.  Fields the
source does not copy (text, looks, controllers, gears, cached hash,
variant page) are absent. -/
def mkRefNode (child : UINode) (res : ResourceInfo) : UINode :=
  let ov0 := extractOverrides child
  let activePage := extractInstanceActiveState child
  let ov1 := if activePage > 0 then ovSet ov0 "page" (OvVal.num activePage) else ov0
  .mk { baseData with
        id := child.data.id
        sourceId := child.data.sourceId
        name := child.data.name
        type := child.data.type
        x := child.data.x
        y := child.data.y
        width := child.data.width
        height := child.data.height
        styles := child.data.styles
        isMask := child.data.isMask
        src := some res.id
        fileName := some (res.name ++ ".xml")
        asComponent := true
        visible := child.data.visible
        overrides := ov1 } []

mutual
/-- Model of `transformTreeRecursive`: walk the children; a child flagged
`asComponent` whose cached hash resolves in the cache is replaced in
place by a reference node (the original child is detached); on a cache
miss the child is silently left untouched (and not recursed into); an
unflagged child is recursed into.  Besides the rewritten tree, the
replacement reference nodes and the detached originals are returned so
that the surrounding phases can track the in-place mutations of the
shared tree. -/
def transformTreeRecursive (cache : Cache) : UINode → UINode × List UINode × List UINode
  | .mk d cs =>
    let r := transformChildren cache cs
    (.mk d r.1, r.2.1, r.2.2)

def transformChildren (cache : Cache) : List UINode → List UINode × List UINode × List UINode
  | [] => ([], [], [])
  | child :: cs =>
    let rest := transformChildren cache cs
    if child.data.asComponent then
      match cacheGet cache (resolveHashKey child) with
      | some res =>
        let ref := mkRefNode child res
        (ref :: rest.1, ref :: rest.2.1, child :: rest.2.2)
      | none => (child :: rest.1, rest.2.1, rest.2.2)
    else
      let r := transformTreeRecursive cache child
      (r.1 :: rest.1, r.2.1 ++ rest.2.1, r.2.2 ++ rest.2.2)
end

/-- The fate of one child under the transformer. -/
def transformChildResult (cache : Cache) (child : UINode) : UINode :=
  if child.data.asComponent then
    match cacheGet cache (resolveHashKey child) with
    | some res => mkRefNode child res
    | none => child
  else (transformTreeRecursive cache child).1

theorem transformChildren_map : ∀ (cache : Cache) (cs : List UINode),
    (transformChildren cache cs).1 = cs.map (transformChildResult cache)
  | _, [] => rfl
  | cache, child :: cs => by
    simp only [transformChildren, transformChildResult, List.map_cons]
    split
    · split
      · simp [transformChildren_map cache cs]
      · simp [transformChildren_map cache cs]
    · simp [transformChildren_map cache cs]

/-- C7: when an extracted child's cached structural hash has no matching
cache entry, the transformer leaves that child byte-for-byte unmodified
at its position in the parent's child list — no reference node is
substituted, the child's subtree is not recursed into or altered, and no
error is raised (the transformer is total). -/
theorem transform_lookup_miss_leaves_child (cache : Cache) (d : NodeData)
    (cs : List UINode) (i : Nat) (child : UINode)
    (hchild : cs.get? i = some child)
    (hflag : child.data.asComponent = true)
    (hmiss : cacheGet cache (resolveHashKey child) = none) :
    transformChildResult cache child = child ∧
    ((transformTreeRecursive cache (.mk d cs)).1).children.get? i = some child := by
  have hres : transformChildResult cache child = child := by
    unfold transformChildResult
    rw [if_pos hflag, hmiss]
  refine ⟨hres, ?_⟩
  simp only [transformTreeRecursive, UINode.children]
  rw [transformChildren_map, List.get?_map, hchild]
  simp [hres]

/-- Witness input for C7: a parent holding one flagged child whose cached
hash is not registered in the (empty) cache. -/
def c7Child : UINode :=
  .mk { baseData with
        id := "x1"
        name := "Card"
        type := ObjectType.Component
        asComponent := true
        structuralHash := some "[9,5,5]" } []

theorem transform_lookup_miss_leaves_child_witness :
    transformChildResult [] c7Child = c7Child ∧
    ((transformTreeRecursive [] (.mk baseData [c7Child])).1).children.get? 0 = some c7Child :=
  transform_lookup_miss_leaves_child [] baseData [c7Child] 0 c7Child
    rfl (by decide) (by decide)

/-! ## Interaction-state detection (`detectAndApplyStates`) -/

/-- The five state keyword groups of `detectAndApplyStates`, in
declaration order. -/
def stateKeywordTable : List (String × List String) :=
  [("selected", ["selected", "选中", "checked"]),
   ("over", ["over", "hover", "悬停"]),
   ("down", ["down", "pressed", "按下", "clicked"]),
   ("disabled", ["disabled", "禁用", "grayed"]),
   ("normal", ["normal", "up", "普通", "默认"])]

/-- Add each state whose keywords match the node's name to the found-set
(insertion-ordered, deduplicated). -/
def addFoundStates (name : String) (acc : List String) : List String :=
  stateKeywordTable.foldl (fun acc pr =>
    if pr.2.any (fun k => jsIncludes (jsToLower name) k) then
      (if pr.1 ∈ acc then acc else acc ++ [pr.1])
    else acc) acc

mutual
def collectStates : UINode → List String → List String
  | .mk d cs, acc => collectStatesL cs (addFoundStates d.name acc)

def collectStatesL : List UINode → List String → List String
  | [], acc => acc
  | c :: cs, acc => collectStatesL cs (collectStates c acc)
end

/-- Build the non-button controller page string: `"0,Normal"` plus one
page per detected non-normal state. -/
def buildStatePagesAux : List String → Nat → String → String
  | [], _, acc => acc
  | s :: rest, i, acc => buildStatePagesAux rest (i + 1) (acc ++ "," ++ natToDec i ++ "," ++ s)

/-- Model of `detectAndApplyStates`: scan the strict descendants for
state-keyword names; when any are found push a controller (the fixed
4-page button controller for Button-extension nodes, else a dynamic
`state` controller).  The per-layer `gearDisplay` block of the source is
commented out (dead code), so no gears are attached here. -/
def detectAndApplyStates (n : UINode) : UINode :=
  match n with
  | .mk d cs =>
    let found := collectStatesL cs []
    if found.isEmpty then .mk d cs
    else
      let isButton := d.extention == some "Button" || d.type == ObjectType.Button
      let ctrl : ControllerInfo :=
        if isButton then { name := "button", pages := "0,up,1,down,2,over,3,selectedOver" }
        else { name := "state"
               pages := buildStatePagesAux (found.filter (fun s => s ≠ "normal")) 1 "0,Normal" }
      .mk { d with controllers := d.controllers ++ [ctrl] } cs

/-! ## Finalization helpers (phase 4) -/

mutual
/-- Model of `stripParent`: a deep copy with the parent back-references
removed; parent pointers are not represented in this embedding, so this
is a structural copy. -/
def stripParent : UINode → UINode
  | .mk d cs => .mk d (stripParentL cs)

def stripParentL : List UINode → List UINode
  | [] => []
  | c :: cs => stripParent c :: stripParentL cs
end

/-- The FGUI extension mapping (`extensionMap`). -/
def extensionName (t : Nat) : Option String :=
  if t = ObjectType.Button then some "Button"
  else if t = ObjectType.ProgressBar then some "ProgressBar"
  else if t = ObjectType.Slider then some "Slider"
  else if t = ObjectType.ComboBox then some "ComboBox"
  else if t = ObjectType.Label then some "Label"
  else if t = ObjectType.List then some "List"
  else none

def setExtention (n : UINode) (ext : String) : UINode :=
  match n with
  | .mk d cs => .mk { d with extention := some ext } cs

/-- One node's renames under `applyStandardNaming` (all keyword tests use
the original lower-cased name; assignments apply in source order). -/
def renameNode (isBarType : Bool) (d : NodeData) (hasChildren : Bool) : NodeData :=
  let d1 := if d.type == ObjectType.Text && titleNameMatch d.name then
      { d with name := "title" } else d
  let isVisual := d.type == ObjectType.Image || d.type == ObjectType.Graph ||
    d.type == ObjectType.Component
  let srcTruthy := match d.src with
    | some s => s != ""
    | none => false
  let d2 := if isVisual && iconNameMatch d.name &&
      (!hasChildren || srcTruthy || d.type == ObjectType.Image) then
      { d1 with name := "icon", type := ObjectType.Loader } else d1
  let d3 := if isBarType && (jsIncludes (jsToLower d.name) "bar" ||
      jsIncludes (jsToLower d.name) "progress" || jsIncludes (jsToLower d.name) "进度") then
      { d2 with name := "bar" } else d2
  if isBarType && (jsIncludes (jsToLower d.name) "grip" ||
      jsIncludes (jsToLower d.name) "thumb" || jsIncludes (jsToLower d.name) "滑块") then
    { d3 with name := "grip" } else d3

mutual
def applyStandardNamingScan (isBarType : Bool) : UINode → UINode
  | .mk d cs => .mk (renameNode isBarType d (!cs.isEmpty)) (applyStandardNamingScanL isBarType cs)

def applyStandardNamingScanL (isBarType : Bool) : List UINode → List UINode
  | [] => []
  | c :: cs => applyStandardNamingScan isBarType c :: applyStandardNamingScanL isBarType cs
end

/-- Model of `applyStandardNaming` (scans the strict descendants; the
bar/grip renames depend on the root node's type). -/
def applyStandardNaming (n : UINode) : UINode :=
  match n with
  | .mk d cs =>
    .mk d (applyStandardNamingScanL
      (d.type == ObjectType.ProgressBar || d.type == ObjectType.Slider) cs)

/-- Replace the first child named `icon`, moving the looks and the
`gearIcon` gears onto it. -/
def setIconChild : List UINode → List (Nat × String) → List GearInfo → List UINode
  | [], _, _ => []
  | .mk cd cc :: rest, ml, gs =>
    if cd.name = "icon" then
      .mk { cd with multiLooks := ml, gears := cd.gears ++ gs } cc :: rest
    else .mk cd cc :: setIconChild rest ml gs

/-- Model of the phase-4 `multiLooks` propagation: when the serialized
canonical has looks and an `icon` child, the looks and the `gearIcon`
gears move from the root onto that child. -/
def moveLooksToIcon (n : UINode) : UINode :=
  match n with
  | .mk d cs =>
    if d.multiLooks.isEmpty then .mk d cs
    else if cs.any (fun c => c.data.name = "icon") then
      .mk { d with multiLooks := [], gears := d.gears.filter (fun g => g.type ≠ "gearIcon") }
        (setIconChild cs d.multiLooks (d.gears.filter (fun g => g.type = "gearIcon")))
    else .mk d cs

mutual
/-- Abbreviated model of `JSON.stringify(cleanNode)`: identity, type and
the recursive children; no claim depends on the payload's exact field
set, only on the resource bookkeeping around it. -/
def serializeNode : UINode → String
  | .mk d cs =>
    "\x7b" ++ jsonQuote "id" ++ ":" ++ jsonQuote d.id ++ "," ++
      jsonQuote "name" ++ ":" ++ jsonQuote d.name ++ "," ++
      jsonQuote "type" ++ ":" ++ natToDec d.type ++ "," ++
      jsonQuote "children" ++ ":[" ++ jsJoin "," (serializeNodeL cs) ++ "]\x7d"

def serializeNodeL : List UINode → List String
  | [] => []
  | c :: cs => serializeNode c :: serializeNodeL cs
end

/-! ## Object identity plumbing

The source mutates one shared tree through object references (candidate
groups hold pointers into the forest).  The embedding locates those
objects by node id: group members are stored as ids, reads and writes go
through the forest, and nodes detached by a replacement are kept in a
detached list so later phases can still reach the original objects
(matching the source's pointer semantics when node ids are unique, which
the parser guarantees). -/

mutual
def findByIdNode (id : String) : UINode → Option UINode
  | .mk d cs => if d.id = id then some (.mk d cs) else findByIdL id cs

def findByIdL (id : String) : List UINode → Option UINode
  | [] => none
  | c :: cs =>
    match findByIdNode id c with
    | some r => some r
    | none => findByIdL id cs
end

mutual
def updateByIdNode (id : String) (f : UINode → UINode) : UINode → UINode × Bool
  | .mk d cs =>
    if d.id = id then (f (.mk d cs), true)
    else
      let r := updateByIdL id f cs
      (.mk d r.1, r.2)

def updateByIdL (id : String) (f : UINode → UINode) : List UINode → List UINode × Bool
  | [] => ([], false)
  | c :: cs =>
    let r := updateByIdNode id f c
    if r.2 then (r.1 :: cs, true)
    else
      let rr := updateByIdL id f cs
      (c :: rr.1, rr.2)
end

def updateForest (forest : List UINode) (id : String) (f : UINode → UINode) : List UINode :=
  (updateByIdL id f forest).1

/-! ## The extraction orchestrator (`extract`) -/

/-- Phase 1: bottom-up candidate collection over the root forest. -/
def phase1 : List UINode → Groups → List UINode × Groups
  | [], g => ([], g)
  | r :: rs, g =>
    let p := collectCandidatesRecursive r g
    let q := phase1 rs p.2
    (p.1 :: q.1, q.2)

def unGet (m : List (String × Nat)) (k : String) : Option Nat :=
  match m.find? (fun pr => pr.1 = k) with
  | some pr => some pr.2
  | none => none

def unSet (m : List (String × Nat)) (k : String) (v : Nat) : List (String × Nat) :=
  match m with
  | [] => [(k, v)]
  | (k', v') :: rest => if k' = k then (k', v) :: rest else (k', v') :: unSet rest k v

/-- Model of `name.replace(/\s+/g, '')`. -/
def stripWs (s : String) : String := String.mk (s.data.filter (fun c => !c.isWhitespace))

/-- The threaded extractor state: the id counter, the name-collision map,
the component cache, the forest, and the reference/detached logs that
record the in-place mutations. -/
structure ExtractState where
  nextCompId : Nat
  usedNames : List (String × Nat)
  cache : Cache
  forest : List UINode
  refs : List UINode
  dets : List UINode

/-- Write the analyzed instances back into the forest by id (the source
mutates them in place through the group's object references; at phase 2
nothing has been detached yet). -/
def writeBack (forest : List UINode) : List (UINode × UINode) → List UINode
  | [] => forest
  | (orig, upd) :: rest => writeBack (updateForest forest orig.data.id (fun _ => upd)) rest

/-- Phase 2 for one candidate group: pre-register the resource (fresh
`comp_<n>` id, whitespace-stripped canonical name with numeric collision
suffix, empty payload) and run variant analysis on the instances. -/
def phase2Step (st : ExtractState) (hash : String) (ids : List String) : ExtractState :=
  if ids.isEmpty then st
  else
    let canonicalName :=
      match findByIdL (ids.headD "") st.forest with
      | some n => n.data.name
      | none => ""
    let resId := "comp_" ++ natToDec st.nextCompId
    let safe0 := stripWs canonicalName
    let named :=
      match unGet st.usedNames safe0 with
      | some cnt => (safe0 ++ "_" ++ natToDec cnt, unSet st.usedNames safe0 (cnt + 1))
      | none => (safe0, unSet st.usedNames safe0 1)
    let preRes : ResourceInfo := { id := resId, name := named.1, type := "component", data := "" }
    let nodes := ids.filterMap (fun i => findByIdL i st.forest)
    let analyzed := analyzeMultiLooks nodes
    { st with
      nextCompId := st.nextCompId + 1
      usedNames := named.2
      cache := st.cache ++ [(hash, preRes)]
      forest := writeBack st.forest (nodes.zip analyzed) }

def phase2 : ExtractState → Groups → ExtractState
  | st, [] => st
  | st, (hash, ids) :: rest => phase2 (phase2Step st hash ids) rest

/-- The phase-3 per-instance operation: transform the subtree, then
detect and apply interaction states. -/
def phase3Op (cache : Cache) (n : UINode) : UINode × List UINode × List UINode :=
  let t := transformTreeRecursive cache n
  (detectAndApplyStates t.1, t.2.1, t.2.2)

mutual
/-- Apply the phase-3 operation to the node with the given id (first
match, preorder), returning the rewritten tree, the new reference nodes,
the newly detached originals, and whether the id was found. -/
def applyOpNode (cache : Cache) (id : String) : UINode → UINode × List UINode × List UINode × Bool
  | .mk d cs =>
    if d.id = id then
      let r := phase3Op cache (.mk d cs)
      (r.1, r.2.1, r.2.2, true)
    else
      let r := applyOpChildren cache id cs
      (.mk d r.1, r.2.1, r.2.2.1, r.2.2.2)

def applyOpChildren (cache : Cache) (id : String) :
    List UINode → List UINode × List UINode × List UINode × Bool
  | [] => ([], [], [], false)
  | c :: rest =>
    let r := applyOpNode cache id c
    if r.2.2.2 then (r.1 :: rest, r.2.1, r.2.2.1, true)
    else
      let rr := applyOpChildren cache id rest
      (c :: rr.1, rr.2.1, rr.2.2.1, rr.2.2.2)
end

/-- Apply the phase-3 operation to one group member: the detached
originals are searched first (they are the objects the group still
references after a replacement), then the live forest. -/
def applyOp (cache : Cache) (st : ExtractState) (id : String) : ExtractState :=
  let rd := applyOpChildren cache id st.dets
  if rd.2.2.2 then
    { st with dets := rd.1 ++ rd.2.2.1, refs := st.refs ++ rd.2.1 }
  else
    let rf := applyOpChildren cache id st.forest
    { st with forest := rf.1, dets := st.dets ++ rf.2.2.1, refs := st.refs ++ rf.2.1 }

def phase3aGroup (cache : Cache) : ExtractState → List String → ExtractState
  | st, [] => st
  | st, id :: ids => phase3aGroup cache (applyOp cache st id) ids

/-- Phase 3a: transform all candidate instances, group by group. -/
def phase3a (cache : Cache) : ExtractState → Groups → ExtractState
  | st, [] => st
  | st, (_, ids) :: rest => phase3a cache (phase3aGroup cache st ids) rest

/-- Phase 3b: transform the root nodes directly. -/
def phase3b (cache : Cache) : List UINode → List UINode × List UINode × List UINode
  | [] => ([], [], [])
  | r :: rs =>
    let t := phase3Op cache r
    let q := phase3b cache rs
    (t.1 :: q.1, t.2.1 ++ q.2.1, t.2.2 ++ q.2.2)

/-- Phase 4 for one group: serialize the canonical instance (located
among the detached originals first, else in the forest) into the
pre-registered resource's payload. -/
def phase4Step (cache : Cache) (forest dets : List UINode) (hash : String)
    (ids : List String) : Option ResourceInfo :=
  if ids.isEmpty then none
  else
    match cacheGet cache hash with
    | none => none
    | some res =>
      let canonical :=
        match findByIdL (ids.headD "") dets with
        | some n => n
        | none => (findByIdL (ids.headD "") forest).getD (.mk baseData [])
      let clean0 := stripParent canonical
      let clean1 :=
        match extensionName canonical.data.type with
        | some ext => applyStandardNaming (setExtention clean0 ext)
        | none => clean0
      let clean2 := moveLooksToIcon clean1
      some { res with data := serializeNode clean2 }

def phase4 (cache : Cache) (forest dets : List UINode) : Groups → List ResourceInfo
  | [] => []
  | (hash, ids) :: rest =>
    match phase4Step cache forest dets hash ids with
    | some r => r :: phase4 cache forest dets rest
    | none => phase4 cache forest dets rest

/-- Model of `extract`: the four phases in order.  Returns the new
resource list, the mutated root forest, and the log of reference nodes
the transformer produced (for stating reference-integrity properties). -/
def extract (rootNodes : List UINode) : List ResourceInfo × List UINode × List UINode :=
  let p1 := phase1 rootNodes []
  let st0 : ExtractState :=
    { nextCompId := 0, usedNames := [], cache := [], forest := p1.1, refs := [], dets := [] }
  let st2 := phase2 st0 p1.2
  let st3 := phase3a st2.cache st2 p1.2
  let p3b := phase3b st3.cache st3.forest
  let resources := phase4 st3.cache p3b.1 (st3.dets ++ p3b.2.2) p1.2
  (resources, p3b.1, st3.refs ++ p3b.2.1)

/-! ## Claim C5: trivial input -/

mutual
/-- Does a predicate hold at every node of a subtree? -/
def treeAll (pn : UINode → Bool) : UINode → Bool
  | .mk d cs => pn (.mk d cs) && treeAllL pn cs

def treeAllL (pn : UINode → Bool) : List UINode → Bool
  | [] => true
  | c :: cs => treeAll pn c && treeAllL pn cs
end

/-- The collector's significance test, evaluated on a node as given. -/
def significantB (n : UINode) : Bool :=
  match n with
  | .mk d cs =>
    decide (cs.length > 2) || isExtensionType d.type ||
    cs.any (fun c => c.data.asComponent) ||
    (hasVisualsB d.styles && decide (cs.length > 0))

/-- Does a name contain any `detectAndApplyStates` keyword? -/
def nameHasStateWord (name : String) : Bool :=
  stateKeywordTable.any (fun pr => pr.2.any (fun k => jsIncludes (jsToLower name) k))

theorem foldl_states_noop : ∀ (tbl : List (String × List String)) (name : String)
    (acc : List String),
    tbl.any (fun pr => pr.2.any (fun k => jsIncludes (jsToLower name) k)) = false →
    tbl.foldl (fun acc pr =>
      if pr.2.any (fun k => jsIncludes (jsToLower name) k) then
        (if pr.1 ∈ acc then acc else acc ++ [pr.1])
      else acc) acc = acc
  | [], _, _, _ => rfl
  | pr :: tbl, name, acc, h => by
    simp only [List.any_cons, Bool.or_eq_false_iff] at h
    simp only [List.foldl_cons, h.1, if_false, Bool.false_eq_true]
    exact foldl_states_noop tbl name acc h.2

theorem addFoundStates_noop (name : String) (acc : List String)
    (h : nameHasStateWord name = false) : addFoundStates name acc = acc := by
  unfold nameHasStateWord at h
  exact foldl_states_noop stateKeywordTable name acc h

mutual
theorem collectStates_noop : ∀ (n : UINode) (acc : List String),
    treeAll (fun m => !nameHasStateWord m.data.name) n = true →
    collectStates n acc = acc
  | .mk d cs, acc => fun h => by
    simp only [treeAll, Bool.and_eq_true] at h
    have h1 : nameHasStateWord d.name = false := by simpa using h.1
    simp only [collectStates]
    rw [addFoundStates_noop d.name acc h1]
    exact collectStatesL_noop cs acc h.2

theorem collectStatesL_noop : ∀ (cs : List UINode) (acc : List String),
    treeAllL (fun m => !nameHasStateWord m.data.name) cs = true →
    collectStatesL cs acc = acc
  | [], _ => fun _ => rfl
  | c :: cs, acc => fun h => by
    simp only [treeAllL, Bool.and_eq_true] at h
    simp only [collectStatesL]
    rw [collectStates_noop c acc h.1]
    exact collectStatesL_noop cs acc h.2
end

theorem detect_noop (n : UINode)
    (h : treeAll (fun m => !nameHasStateWord m.data.name) n = true) :
    detectAndApplyStates n = n := by
  match n with
  | .mk d cs =>
    simp only [treeAll, Bool.and_eq_true] at h
    have hcs : collectStatesL cs [] = [] := collectStatesL_noop cs [] h.2
    simp [detectAndApplyStates, hcs]

mutual
theorem transform_noop : ∀ (cache : Cache) (n : UINode),
    treeAll (fun m => !significantB m) n = true →
    transformTreeRecursive cache n = (n, [], [])
  | cache, .mk d cs => fun h => by
    simp only [treeAll, Bool.and_eq_true] at h
    have hsig : significantB (.mk d cs) = false := by simpa using h.1
    have hflags : cs.any (fun c => c.data.asComponent) = false := by
      simp only [significantB, Bool.or_eq_false_iff] at hsig
      exact hsig.1.2
    simp only [transformTreeRecursive]
    rw [transformChildren_noop cache cs hflags h.2]

theorem transformChildren_noop : ∀ (cache : Cache) (cs : List UINode),
    cs.any (fun c => c.data.asComponent) = false →
    treeAllL (fun m => !significantB m) cs = true →
    transformChildren cache cs = (cs, [], [])
  | _, [] => fun _ _ => rfl
  | cache, c :: cs => fun hf ha => by
    simp only [List.any_cons, Bool.or_eq_false_iff] at hf
    simp only [treeAllL, Bool.and_eq_true] at ha
    simp only [transformChildren]
    rw [transformChildren_noop cache cs hf.2 ha.2, hf.1, transform_noop cache c ha.1]
    simp
end

mutual
theorem collect_noop : ∀ (n : UINode) (g : Groups),
    treeAll (fun m => !significantB m) n = true →
    collectCandidatesRecursive n g = (n, g)
  | .mk d cs, g => fun h => by
    simp only [treeAll, Bool.and_eq_true] at h
    have hsig : significantB (.mk d cs) = false := by simpa using h.1
    have hcc := collectChildren_noop cs g h.2
    simp only [significantB] at hsig
    simp only [collectCandidatesRecursive, hcc]
    repeat' split
    all_goals simp_all

theorem collectChildren_noop : ∀ (cs : List UINode) (g : Groups),
    treeAllL (fun m => !significantB m) cs = true →
    collectChildren cs g = (cs, g)
  | [], _ => fun _ => rfl
  | c :: cs, g => fun h => by
    simp only [treeAllL, Bool.and_eq_true] at h
    simp only [collectChildren]
    rw [collect_noop c g h.1, collectChildren_noop cs g h.2]
end

theorem phase1_noop : ∀ (roots : List UINode) (g : Groups),
    treeAllL (fun m => !significantB m) roots = true →
    phase1 roots g = (roots, g)
  | [], _ => fun _ => rfl
  | r :: rs, g => fun h => by
    simp only [treeAllL, Bool.and_eq_true] at h
    simp only [phase1]
    rw [collect_noop r g h.1, phase1_noop rs g h.2]

theorem phase3b_noop : ∀ (cache : Cache) (roots : List UINode),
    treeAllL (fun m => !significantB m) roots = true →
    treeAllL (fun m => !nameHasStateWord m.data.name) roots = true →
    phase3b cache roots = (roots, [], [])
  | _, [] => fun _ _ => rfl
  | cache, r :: rs => fun hs hn => by
    simp only [treeAllL, Bool.and_eq_true] at hs hn
    simp only [phase3b, phase3Op]
    rw [transform_noop cache r hs.1]
    simp only []
    rw [detect_noop r hn.1, phase3b_noop cache rs hs.2 hn.2]
    simp

/-- C5 counterexample input: a single non-significant root whose only
child is named "hover". -/
def c5Root : UINode :=
  .mk { baseData with
        id := "r1"
        name := "panel"
        type := ObjectType.Group
        width := 5
        height := 5 }
    [.mk { baseData with id := "h1", name := "hover", type := ObjectType.Text } []]

/-- C5 is false as stated: in this forest no node passes the significance
test and indeed `extract` returns an empty resource list, yet the forest
does NOT come back unchanged — `detectAndApplyStates` still runs on every
root and attaches a `state` controller because a descendant's name
contains an interaction-state keyword. -/
theorem extract_trivial_not_unchanged_cex :
    treeAll (fun m => !significantB m) c5Root = true ∧
    (extract [c5Root]).1 = [] ∧
    c5Root.data.controllers = [] ∧
    ((extract [c5Root]).2.1.headD (.mk baseData [])).data.controllers ≠ [] := by
  decide

/-- C5 (amended): if no node of the forest passes the significance test
AND no node's name contains an interaction-state keyword, then `extract`
returns an empty resource list and leaves every node of the forest
unchanged (and produces no reference nodes).  Without the second
condition the tree still gains controllers from state detection. -/
theorem extract_trivial_noop (roots : List UINode)
    (hsig : treeAllL (fun m => !significantB m) roots = true)
    (hstate : treeAllL (fun m => !nameHasStateWord m.data.name) roots = true) :
    extract roots = ([], roots, []) := by
  unfold extract
  rw [phase1_noop roots [] hsig]
  simp only [phase2, phase3a]
  rw [phase3b_noop _ roots hsig hstate]
  simp [phase4]

theorem extract_trivial_noop_witness :
    extract [.mk { baseData with id := "w1", name := "box", type := ObjectType.Group }
      [.mk { baseData with id := "w2", name := "line", type := ObjectType.Graph } []]] =
    ([], [.mk { baseData with id := "w1", name := "box", type := ObjectType.Group }
      [.mk { baseData with id := "w2", name := "line", type := ObjectType.Graph } []]], []) :=
  extract_trivial_noop _ (by decide) (by decide)

/-! ## Claim C8: resource-id bookkeeping -/

theorem decDigit_toNat (d : Nat) (h : d < 10) : (decDigit d).toNat = 48 + d := by
  interval_cases d <;> decide

/-- Decode a decimal digit string (left fold), inverse of `natToDecAux`. -/
def decodeDec (l : List Char) : Nat := l.foldl (fun a c => 10 * a + (c.toNat - 48)) 0

theorem decodeDec_append_digit (l : List Char) (c : Char) :
    decodeDec (l ++ [c]) = 10 * decodeDec l + (c.toNat - 48) := by
  unfold decodeDec
  rw [List.foldl_append]
  rfl

theorem decodeDec_mul (l : List Char) : ∀ (a : Nat),
    l.foldl (fun a c => 10 * a + (c.toNat - 48)) a =
      a * 10 ^ l.length + decodeDec l := by
  induction l with
  | nil => intro a; simp [decodeDec]
  | cons c l ih =>
    intro a
    simp only [List.foldl_cons, decodeDec, List.length_cons]
    rw [ih (10 * a + (c.toNat - 48)), ih (10 * 0 + (c.toNat - 48))]
    ring

theorem decode_natToDecAux : ∀ (fuel n : Nat), n < 10 ^ fuel →
    decodeDec (natToDecAux fuel n) = n := by
  intro fuel
  induction fuel with
  | zero =>
    intro n h
    simp only [pow_zero, Nat.lt_one_iff] at h
    subst h
    rfl
  | succ f ih =>
    intro n h
    by_cases h10 : n < 10
    · simp only [natToDecAux, if_pos h10]
      have hd := decDigit_toNat n h10
      simp only [decodeDec, List.foldl_cons, List.foldl_nil]
      omega
    · simp only [natToDecAux, if_neg h10]
      rw [decodeDec_append_digit]
      rw [ih (n / 10) (by
        rw [pow_succ] at h
        exact Nat.div_lt_of_lt_mul (by omega))]
      have hd := decDigit_toNat (n % 10) (Nat.mod_lt n (by omega))
      omega

theorem natToDec_inj (a b : Nat) (h : natToDec a = natToDec b) : a = b := by
  have hpow : ∀ n : Nat, n < 10 ^ (n + 1) := by
    intro n
    calc n < 10 ^ n := Nat.lt_pow_self (by omega) n
    _ ≤ 10 ^ (n + 1) := Nat.pow_le_pow_right (by omega) (Nat.le_succ n)
  have hda : decodeDec (natToDecAux (a + 1) a) = a := decode_natToDecAux _ _ (hpow a)
  have hdb : decodeDec (natToDecAux (b + 1) b) = b := decode_natToDecAux _ _ (hpow b)
  have hdata : natToDecAux (a + 1) a = natToDecAux (b + 1) b := congrArg String.data h
  rw [hdata] at hda
  omega

theorem compId_inj (a b : Nat) (h : "comp_" ++ natToDec a = "comp_" ++ natToDec b) :
    a = b := by
  have hd := congrArg String.data h
  simp only [String.data_append] at hd
  exact natToDec_inj a b (stringDataEq (List.append_inj hd rfl).2)

/-- Invariant of the candidate-group map: group keys are unique (it
models a `Map`) and every bucket is nonempty (a bucket is created only
when an id is pushed). -/
def groupsInv (g : Groups) : Prop :=
  ((g.map Prod.fst).Nodup) ∧ ∀ pr ∈ g, pr.2 ≠ []

theorem groupsAdd_keys_sub : ∀ (g : Groups) (h id : String),
    ∀ k ∈ (groupsAdd g h id).map Prod.fst, k ∈ g.map Prod.fst ∨ k = h
  | [], h, id => by simp [groupsAdd]
  | (h', ids) :: rest, h, id => by
    intro k hk
    by_cases he : h' = h
    · simp only [groupsAdd, if_pos he, List.map_cons, List.mem_cons] at hk ⊢
      rcases hk with hk | hk
      · exact Or.inl (Or.inl hk)
      · exact Or.inl (Or.inr hk)
    · simp only [groupsAdd, if_neg he, List.map_cons, List.mem_cons] at hk ⊢
      rcases hk with hk | hk
      · exact Or.inl (Or.inl hk)
      · rcases groupsAdd_keys_sub rest h id k hk with hr | hr
        · exact Or.inl (Or.inr hr)
        · exact Or.inr hr

theorem groupsAdd_inv : ∀ (g : Groups) (h id : String), groupsInv g →
    groupsInv (groupsAdd g h id)
  | [], h, id => fun _ => by
    constructor
    · simp [groupsAdd]
    · intro pr hpr
      simp only [groupsAdd, List.mem_singleton] at hpr
      rw [hpr]
      simp
  | (h', ids) :: rest, h, id => fun hg => by
    obtain ⟨hnd, hne⟩ := hg
    simp only [List.map_cons, List.nodup_cons] at hnd
    by_cases he : h' = h
    · simp only [groupsAdd, if_pos he]
      constructor
      · simp only [List.map_cons, List.nodup_cons]
        exact hnd
      · intro pr hpr
        rcases List.mem_cons.mp hpr with hp | hp
        · rw [hp]
          simp
        · exact hne pr (List.mem_cons_of_mem _ hp)
    · simp only [groupsAdd, if_neg he]
      have ih := groupsAdd_inv rest h id
        ⟨hnd.2, fun pr hpr => hne pr (List.mem_cons_of_mem _ hpr)⟩
      constructor
      · simp only [List.map_cons, List.nodup_cons]
        refine ⟨?_, ih.1⟩
        intro hmem
        rcases groupsAdd_keys_sub rest h id h' hmem with hr | hr
        · exact hnd.1 hr
        · exact he hr
      · intro pr hpr
        rcases List.mem_cons.mp hpr with hp | hp
        · rw [hp]
          exact hne (h', ids) (List.mem_cons_self _ _)
        · exact ih.2 pr hp

mutual
theorem collect_groupsInv : ∀ (n : UINode) (g : Groups), groupsInv g →
    groupsInv (collectCandidatesRecursive n g).2
  | .mk d cs, g => fun hg => by
    rcases collect_mk_cases d cs g with hc | hc | hc <;> rw [hc]
    · exact hg
    · exact collectChildren_groupsInv cs g hg
    · exact groupsAdd_inv _ _ _ (collectChildren_groupsInv cs g hg)

theorem collectChildren_groupsInv : ∀ (cs : List UINode) (g : Groups), groupsInv g →
    groupsInv (collectChildren cs g).2
  | [], _ => fun hg => hg
  | c :: cs, g => fun hg =>
    collectChildren_groupsInv cs _ (collect_groupsInv c g hg)
end

theorem phase1_groupsInv : ∀ (roots : List UINode) (g : Groups), groupsInv g →
    groupsInv (phase1 roots g).2
  | [], _ => fun hg => hg
  | r :: rs, g => fun hg =>
    phase1_groupsInv rs _ (collect_groupsInv r g hg)


theorem phase2Step_cache_empty (st : ExtractState) (hash : String) :
    phase2Step st hash [] = st := rfl

def mkPreRes (k : Nat) (nm : String) : ResourceInfo :=
  { id := "comp_" ++ natToDec k, name := nm, type := "component", data := "" }

theorem phase2Step_cache (st : ExtractState) (hash : String) (ids : List String)
    (hne : ids ≠ []) :
    (∃ nm, (phase2Step st hash ids).cache =
      st.cache ++ [(hash, mkPreRes st.nextCompId nm)]) ∧
    (phase2Step st hash ids).nextCompId = st.nextCompId + 1 := by
  have hemp : ids.isEmpty = false := by
    cases ids with
    | nil => exact absurd rfl hne
    | cons a b => rfl
  unfold phase2Step
  rw [hemp]
  exact ⟨⟨_, rfl⟩, rfl⟩

theorem phase2_cache_grows : ∀ (gs : Groups) (st : ExtractState),
    ∀ pr ∈ st.cache, pr ∈ (phase2 st gs).cache
  | [], _ => fun _ hpr => hpr
  | (hash, ids) :: rest, st => fun pr hpr => by
    simp only [phase2]
    refine phase2_cache_grows rest _ pr ?_
    by_cases hemp : ids = []
    · subst hemp
      rw [phase2Step_cache_empty]
      exact hpr
    · obtain ⟨⟨nm, hcache⟩, _⟩ := phase2Step_cache st hash ids hemp
      rw [hcache]
      exact List.mem_append_left _ hpr

/-- The cache bookkeeping of phase 2: resource ids are fresh `comp_<k>`
names, pairwise distinct; hash keys are pairwise distinct; every entry
comes from a nonempty group; and every nonempty group registers one. -/
theorem phase2_spec : ∀ (gs : Groups) (st : ExtractState),
    (∀ pr ∈ st.cache, ∃ k, k < st.nextCompId ∧ pr.2.id = "comp_" ++ natToDec k) →
    ((st.cache.map (fun pr => pr.2.id)).Nodup) →
    ((st.cache.map Prod.fst ++ gs.map Prod.fst).Nodup) →
    (∀ pr ∈ (phase2 st gs).cache, ∃ k, k < (phase2 st gs).nextCompId ∧
        pr.2.id = "comp_" ++ natToDec k) ∧
    (((phase2 st gs).cache.map (fun pr => pr.2.id)).Nodup) ∧
    (((phase2 st gs).cache.map Prod.fst).Nodup) ∧
    (∀ pr ∈ (phase2 st gs).cache, pr ∈ st.cache ∨ ∃ ids, (pr.1, ids) ∈ gs ∧ ids ≠ []) ∧
    (∀ h ids, (h, ids) ∈ gs → ids ≠ [] → ∃ res, (h, res) ∈ (phase2 st gs).cache)
  | [], st => fun hids hnd hkeys => by
    refine ⟨hids, hnd, ?_, fun pr hpr => Or.inl hpr,
      fun h ids hmem => absurd hmem (List.not_mem_nil _)⟩
    exact List.Nodup.sublist (List.sublist_append_left _ _) hkeys
  | (hash, ids) :: rest, st => fun hids hnd hkeys => by
    by_cases hemp : ids = []
    · subst hemp
      have hkeys' : (st.cache.map Prod.fst ++ rest.map Prod.fst).Nodup := by
        refine List.Nodup.sublist ?_ hkeys
        refine List.Sublist.append_left ?_ _
        simp only [List.map_cons]
        exact List.Sublist.cons _ (List.Sublist.refl _)
      have ih := phase2_spec rest st hids hnd hkeys'
      simp only [phase2, phase2Step_cache_empty]
      refine ⟨ih.1, ih.2.1, ih.2.2.1, fun pr hpr => ?_, fun h ids2 hmem hne2 => ?_⟩
      · rcases ih.2.2.2.1 pr hpr with hc | ⟨ids2, hm, hn⟩
        · exact Or.inl hc
        · exact Or.inr ⟨ids2, List.mem_cons_of_mem _ hm, hn⟩
      · rcases List.mem_cons.mp hmem with hc | hc
        · exact absurd (congrArg Prod.snd hc) hne2
        · exact ih.2.2.2.2 h ids2 hc hne2
    · obtain ⟨⟨nm, hcache⟩, hnext⟩ := phase2Step_cache st hash ids hemp
      have hids' : ∀ pr ∈ (phase2Step st hash ids).cache,
          ∃ k, k < (phase2Step st hash ids).nextCompId ∧
            pr.2.id = "comp_" ++ natToDec k := by
        intro pr hpr
        rw [hcache] at hpr
        rcases List.mem_append.mp hpr with hm | hm
        · obtain ⟨k, hk, he⟩ := hids pr hm
          rw [hnext]
          exact ⟨k, by omega, he⟩
        · rw [List.mem_singleton] at hm
          rw [hm, hnext]
          exact ⟨st.nextCompId, by omega, rfl⟩
      have hnd' : ((phase2Step st hash ids).cache.map (fun pr => pr.2.id)).Nodup := by
        rw [hcache, List.map_append, List.nodup_append]
        refine ⟨hnd, by simp [mkPreRes], ?_⟩
        intro x hx hxs
        simp only [List.map_cons, List.map_nil, List.mem_singleton, mkPreRes] at hxs
        obtain ⟨pr, hpr, hpx⟩ := List.mem_map.mp hx
        obtain ⟨k, hk, he⟩ := hids pr hpr
        rw [← hpx, he] at hxs
        have := compId_inj _ _ hxs
        omega
      have hkeys' : ((phase2Step st hash ids).cache.map Prod.fst ++
          rest.map Prod.fst).Nodup := by
        rw [hcache, List.map_append]
        have heq : (st.cache.map Prod.fst ++
            ([(hash, mkPreRes st.nextCompId nm)].map Prod.fst)) ++ rest.map Prod.fst =
            st.cache.map Prod.fst ++ (hash :: rest.map Prod.fst) := by
          simp
        rw [heq]
        simpa using hkeys
      have ih := phase2_spec rest (phase2Step st hash ids) hids' hnd' hkeys'
      simp only [phase2]
      refine ⟨ih.1, ih.2.1, ih.2.2.1, fun pr hpr => ?_, fun h ids2 hmem hne2 => ?_⟩
      · rcases ih.2.2.2.1 pr hpr with hc | ⟨ids2, hm, hn⟩
        · rw [hcache] at hc
          rcases List.mem_append.mp hc with hm | hm
          · exact Or.inl hm
          · rw [List.mem_singleton] at hm
            refine Or.inr ⟨ids, ?_, hemp⟩
            rw [hm]
            exact List.mem_cons_self _ _
        · exact Or.inr ⟨ids2, List.mem_cons_of_mem _ hm, hn⟩
      · rcases List.mem_cons.mp hmem with hc | hc
        · have hin : (hash, mkPreRes st.nextCompId nm) ∈ (phase2Step st hash ids).cache := by
            rw [hcache]
            exact List.mem_append_right _ (by simp)
          have hh : h = hash := congrArg Prod.fst hc
          subst hh
          exact ⟨_, phase2_cache_grows rest _ _ hin⟩
        · exact ih.2.2.2.2 h ids2 hc hne2

/-- A reference node is well linked w.r.t. a cache: its `src` is the id
of a resource found in the cache. -/
def refOk (cache : Cache) (ref : UINode) : Prop :=
  ∃ h res, cacheGet cache h = some res ∧ ref.data.src = some res.id

mutual
theorem transform_refs_ok : ∀ (cache : Cache) (n : UINode),
    ∀ ref ∈ (transformTreeRecursive cache n).2.1, refOk cache ref
  | cache, .mk d cs => fun ref href =>
    transformChildren_refs_ok cache cs ref (by
      simpa [transformTreeRecursive] using href)

theorem transformChildren_refs_ok : ∀ (cache : Cache) (cs : List UINode),
    ∀ ref ∈ (transformChildren cache cs).2.1, refOk cache ref
  | _, [] => fun ref href => absurd href (List.not_mem_nil _)
  | cache, child :: cs => fun ref href => by
    simp only [transformChildren] at href
    split at href
    · split at href
      · rcases List.mem_cons.mp href with he | hm
        · refine ⟨resolveHashKey child, _, by assumption, ?_⟩
          rw [he]
          rfl
        · exact transformChildren_refs_ok cache cs ref hm
      · exact transformChildren_refs_ok cache cs ref href
    · rcases List.mem_append.mp href with hm | hm
      · exact transform_refs_ok cache child ref hm
      · exact transformChildren_refs_ok cache cs ref hm
end

theorem phase3Op_refs_ok (cache : Cache) (n : UINode) :
    ∀ ref ∈ (phase3Op cache n).2.1, refOk cache ref := by
  intro ref href
  exact transform_refs_ok cache n ref (by simpa [phase3Op] using href)

mutual
theorem applyOpNode_refs_ok : ∀ (cache : Cache) (id : String) (n : UINode),
    ∀ ref ∈ (applyOpNode cache id n).2.1, refOk cache ref
  | cache, id, .mk d cs => fun ref href => by
    simp only [applyOpNode] at href
    split at href
    · exact phase3Op_refs_ok cache _ ref href
    · exact applyOpChildren_refs_ok cache id cs ref href

theorem applyOpChildren_refs_ok : ∀ (cache : Cache) (id : String) (cs : List UINode),
    ∀ ref ∈ (applyOpChildren cache id cs).2.1, refOk cache ref
  | _, _, [] => fun ref href => absurd href (List.not_mem_nil _)
  | cache, id, c :: rest => fun ref href => by
    simp only [applyOpChildren] at href
    split at href
    · exact applyOpNode_refs_ok cache id c ref href
    · exact applyOpChildren_refs_ok cache id rest ref href
end

theorem applyOp_refs_ok (cache : Cache) (st : ExtractState) (id : String)
    (hst : ∀ ref ∈ st.refs, refOk cache ref) :
    ∀ ref ∈ (applyOp cache st id).refs, refOk cache ref := by
  intro ref href
  unfold applyOp at href
  dsimp only at href
  split at href
  · simp only at href
    rcases List.mem_append.mp href with hm | hm
    · exact hst ref hm
    · exact applyOpChildren_refs_ok cache id st.dets ref hm
  · simp only at href
    rcases List.mem_append.mp href with hm | hm
    · exact hst ref hm
    · exact applyOpChildren_refs_ok cache id st.forest ref hm

theorem phase3aGroup_refs_ok : ∀ (cache : Cache) (st : ExtractState) (ids : List String),
    (∀ ref ∈ st.refs, refOk cache ref) →
    ∀ ref ∈ (phase3aGroup cache st ids).refs, refOk cache ref
  | _, st, [] => fun hst => hst
  | cache, st, id :: ids => fun hst =>
    phase3aGroup_refs_ok cache _ ids (applyOp_refs_ok cache st id hst)

theorem phase3a_refs_ok : ∀ (cache : Cache) (st : ExtractState) (gs : Groups),
    (∀ ref ∈ st.refs, refOk cache ref) →
    ∀ ref ∈ (phase3a cache st gs).refs, refOk cache ref
  | _, st, [] => fun hst => hst
  | cache, st, (_, ids) :: rest => fun hst =>
    phase3a_refs_ok cache _ rest (phase3aGroup_refs_ok cache st ids hst)

theorem phase3b_refs_ok : ∀ (cache : Cache) (roots : List UINode),
    ∀ ref ∈ (phase3b cache roots).2.1, refOk cache ref
  | _, [] => fun ref href => absurd href (List.not_mem_nil _)
  | cache, r :: rs => fun ref href => by
    simp only [phase3b] at href
    rcases List.mem_append.mp href with hm | hm
    · exact phase3Op_refs_ok cache r ref hm
    · exact phase3b_refs_ok cache rs ref hm

theorem applyOp_cache (cache : Cache) (st : ExtractState) (id : String) :
    (applyOp cache st id).cache = st.cache := by
  unfold applyOp
  dsimp only
  split <;> rfl

theorem phase3aGroup_cache : ∀ (cache : Cache) (st : ExtractState) (ids : List String),
    (phase3aGroup cache st ids).cache = st.cache
  | _, _, [] => rfl
  | cache, st, id :: ids => by
    simp only [phase3aGroup]
    rw [phase3aGroup_cache cache _ ids, applyOp_cache]

theorem phase3a_cache : ∀ (cache : Cache) (st : ExtractState) (gs : Groups),
    (phase3a cache st gs).cache = st.cache
  | _, _, [] => rfl
  | cache, st, (_, ids) :: rest => by
    simp only [phase3a]
    rw [phase3a_cache cache _ rest, phase3aGroup_cache]

theorem cacheGet_mem (cache : Cache) (h : String) (res : ResourceInfo)
    (hc : cacheGet cache h = some res) : (h, res) ∈ cache := by
  unfold cacheGet at hc
  split at hc
  case h_1 pr heq =>
    injection hc with h1
    have hm := List.mem_of_find?_eq_some heq
    have hp := List.find?_some heq
    obtain ⟨k, r⟩ := pr
    simp only [decide_eq_true_eq] at hp
    rw [← h1]
    rw [← hp]
    exact hm
  case h_2 => exact absurd hc (by simp)

theorem phase2_refs : ∀ (gs : Groups) (st : ExtractState),
    (phase2 st gs).refs = st.refs
  | [], _ => rfl
  | (hash, ids) :: rest, st => by
    simp only [phase2]
    rw [phase2_refs rest]
    by_cases hemp : ids = []
    · subst hemp
      rw [phase2Step_cache_empty]
    · have : ids.isEmpty = false := by
        cases ids with
        | nil => exact absurd rfl hemp
        | cons a b => rfl
      unfold phase2Step
      rw [this]
      rfl

theorem phase4Step_some (cache : Cache) (forest dets : List UINode) (hash : String)
    (ids : List String) (r : ResourceInfo)
    (heq : phase4Step cache forest dets hash ids = some r) :
    ∃ res, cacheGet cache hash = some res ∧ r.id = res.id := by
  unfold phase4Step at heq
  split at heq
  · exact absurd heq (by simp)
  · split at heq
    · exact absurd heq (by simp)
    case h_2 res hres =>
      refine ⟨res, hres, ?_⟩
      injection heq with h1
      rw [← h1]

theorem phase4_mem_elim : ∀ (cache : Cache) (forest dets : List UINode) (gs : Groups),
    ∀ r ∈ phase4 cache forest dets gs,
    ∃ h ids res, (h, ids) ∈ gs ∧ cacheGet cache h = some res ∧ r.id = res.id
  | _, _, _, [] => fun r hr => absurd hr (List.not_mem_nil _)
  | cache, forest, dets, (hash, ids) :: rest => fun r hr => by
    simp only [phase4] at hr
    split at hr
    case h_1 r0 heq =>
      rcases List.mem_cons.mp hr with he | hm
      · obtain ⟨res, hc, hid⟩ := phase4Step_some cache forest dets hash ids r0 heq
        exact ⟨hash, ids, res, List.mem_cons_self _ _, hc, by rw [he, hid]⟩
      · obtain ⟨h, ids2, res, hg, hc, hid⟩ := phase4_mem_elim cache forest dets rest r hm
        exact ⟨h, ids2, res, List.mem_cons_of_mem _ hg, hc, hid⟩
    case h_2 =>
      obtain ⟨h, ids2, res, hg, hc, hid⟩ := phase4_mem_elim cache forest dets rest r hr
      exact ⟨h, ids2, res, List.mem_cons_of_mem _ hg, hc, hid⟩

theorem phase4_mem_intro : ∀ (cache : Cache) (forest dets : List UINode) (gs : Groups)
    (h : String) (ids : List String) (res : ResourceInfo),
    (h, ids) ∈ gs → ids ≠ [] → cacheGet cache h = some res →
    ∃ r, r ∈ phase4 cache forest dets gs ∧ r.id = res.id
  | _, _, _, [], _, _, _ => fun hm _ _ => absurd hm (List.not_mem_nil _)
  | cache, forest, dets, (hash, ids0) :: rest, h, ids, res => fun hm hne hc => by
    rcases List.mem_cons.mp hm with he | hmem
    · have hh : h = hash := congrArg Prod.fst he
      have hi : ids = ids0 := congrArg Prod.snd he
      have hemp : ids0.isEmpty = false := by
        cases ids0 with
        | nil => exact absurd (hi ▸ rfl) hne
        | cons a b => rfl
      have hstep : phase4Step cache forest dets hash ids0 =
          some { (res : ResourceInfo) with data := serializeNode (moveLooksToIcon
            (match extensionName ((match findByIdL (ids0.headD "") dets with
              | some n => n
              | none => (findByIdL (ids0.headD "") forest).getD (.mk baseData [])).data.type) with
             | some ext => applyStandardNaming (setExtention (stripParent
                 (match findByIdL (ids0.headD "") dets with
                  | some n => n
                  | none => (findByIdL (ids0.headD "") forest).getD (.mk baseData []))) ext)
             | none => stripParent (match findByIdL (ids0.headD "") dets with
                  | some n => n
                  | none => (findByIdL (ids0.headD "") forest).getD (.mk baseData [])))) } := by
        unfold phase4Step
        rw [hemp, ← hh, hc]
        rfl
      simp only [phase4, hstep]
      exact ⟨_, List.mem_cons_self _ _, rfl⟩
    · obtain ⟨r, hrm, hrid⟩ := phase4_mem_intro cache forest dets rest h ids res hmem hne hc
      simp only [phase4]
      split
      · exact ⟨r, List.mem_cons_of_mem _ hrm, hrid⟩
      · exact ⟨r, hrm, hrid⟩

theorem phase4_nodup : ∀ (cache : Cache) (forest dets : List UINode) (gs : Groups),
    ((cache.map (fun pr => pr.2.id)).Nodup) →
    ((gs.map Prod.fst).Nodup) →
    ((phase4 cache forest dets gs).map (fun r => r.id)).Nodup
  | _, _, _, [] => fun _ _ => List.nodup_nil
  | cache, forest, dets, (hash, ids) :: rest => fun hcid hgkey => by
    simp only [List.map_cons, List.nodup_cons] at hgkey
    have ih := phase4_nodup cache forest dets rest hcid hgkey.2
    simp only [phase4]
    split
    case h_2 => exact ih
    case h_1 r0 heq =>
      simp only [List.map_cons, List.nodup_cons]
      refine ⟨?_, ih⟩
      intro hmem
      obtain ⟨r', hr'mem, hr'id⟩ := List.mem_map.mp hmem
      obtain ⟨h', ids', res', hg', hc', hid'⟩ := phase4_mem_elim cache forest dets rest r' hr'mem
      obtain ⟨res0, hc0, hid0⟩ := phase4Step_some cache forest dets hash ids r0 heq
      have heq2 : res'.id = res0.id := by rw [← hid', ← hid0, hr'id]
      have hpair : (h', res') = (hash, res0) :=
        List.inj_on_of_nodup_map hcid (cacheGet_mem cache h' res' hc')
          (cacheGet_mem cache hash res0 hc0) heq2
      have hhh : h' = hash := congrArg Prod.fst hpair
      exact hgkey.1 (hhh ▸ List.mem_map_of_mem Prod.fst hg')

/-- C8: reference integrity of `extract`.  The resource ids in the output
list are pairwise distinct (one fresh `comp_<k>` per unique structural
hash), and every reference node produced by the tree transformer carries
a `src` that equals the id of exactly one resource in the output list. -/
theorem extract_reference_integrity (roots : List UINode) :
    (((extract roots).1.map (fun r => r.id)).Nodup) ∧
    (∀ ref ∈ (extract roots).2.2, ∃! r, r ∈ (extract roots).1 ∧
      ref.data.src = some r.id) := by
  unfold extract
  dsimp only
  have hginv : groupsInv (phase1 roots []).2 :=
    phase1_groupsInv roots [] ⟨List.nodup_nil, fun pr hpr => absurd hpr (List.not_mem_nil _)⟩
  have hst0 : ∀ pr ∈ ([] : Cache), ∃ k, k < 0 ∧ pr.2.id = "comp_" ++ natToDec k :=
    fun pr hpr => absurd hpr (List.not_mem_nil _)
  have hspec := phase2_spec (phase1 roots []).2
    (ExtractState.mk 0 [] [] (phase1 roots []).1 [] [])
    hst0 List.nodup_nil (by simpa using hginv.1)
  have hc3 := phase3a_cache
    (phase2 (ExtractState.mk 0 [] [] (phase1 roots []).1 [] []) (phase1 roots []).2).cache
    (phase2 (ExtractState.mk 0 [] [] (phase1 roots []).1 [] []) (phase1 roots []).2)
    (phase1 roots []).2
  rw [hc3]
  constructor
  · exact phase4_nodup _ _ _ _ hspec.2.1 hginv.1
  · intro ref href
    have hok : refOk (phase2 (ExtractState.mk 0 [] [] (phase1 roots []).1 [] [])
        (phase1 roots []).2).cache ref := by
      rcases List.mem_append.mp href with hm | hm
      · refine phase3a_refs_ok _ _ _ ?_ ref (by rw [← hc3] at hm ⊢; exact hm)
        rw [phase2_refs]
        intro r hr
        exact absurd hr (List.not_mem_nil _)
      · exact phase3b_refs_ok _ _ ref (by rw [← hc3] at hm ⊢; exact hm)
    obtain ⟨h, res, hc, hsrc⟩ := hok
    have hmem := cacheGet_mem _ h res hc
    rcases hspec.2.2.2.1 (h, res) hmem with hnil | ⟨ids, hg, hne⟩
    · exact absurd hnil (List.not_mem_nil _)
    · obtain ⟨r, hrmem, hrid⟩ := phase4_mem_intro _ _ _ _ h ids res hg hne hc
      refine ⟨r, ⟨hrmem, by rw [hsrc, hrid]⟩, ?_⟩
      intro r' hr'
      have hid : r'.id = r.id := by
        have h1 := hsrc.symm.trans hr'.2
        injection h1 with h2
        rw [hrid]
        exact h2.symm
      exact List.inj_on_of_nodup_map (phase4_nodup _ _ _ _ hspec.2.1 hginv.1) hr'.1 hrmem hid
